import Mathlib

/-!
Shallow embedding of the CFG-PARSER repository (files `main.py`, `parser.py`,
`tree.py`) and verification of its specification claims.

A grammar is a Python dict `{lhs: [[sym, ...], ...]}`; Python dicts preserve
insertion order, so we embed a grammar as an association list.  A CYK table is
an `n × n` grid of sets of nonterminal names; cells only ever grow and only
membership is observable, so we embed the table as a total function to
duplicate-free lists (`cellAdd` is membership-idempotent exactly like Python's
`set.add`).  Input strings are lists of characters; Python's `string[i]` is a
one-character string, embedded as `chr`.
-/

abbrev Symb := String

abbrev Grammar := List (Symb × List (List Symb))

abbrev Table := Nat → Nat → List Symb

def keys (g : Grammar) : List Symb := g.map Prod.fst

/-- Python `string[i]`: the one-character string at position `i`. -/
def chr (c : Char) : Symb := String.mk [c]

def emptyT : Table := fun _ _ => []

/-- Python `table[a][b].add(x)` on a table of sets. -/
def cellAdd (t : Table) (a b : Nat) (x : Symb) : Table :=
  fun i j =>
    if i = a ∧ j = b then (if x ∈ t a b then t a b else t a b ++ [x]) else t i j

namespace MainPy

/-!  `main.py`, `cyk_parser` (lines 105-142).  -/

/-- One production in the diagonal pass:
`if len(production) == 1 and production[0] == char: table[i][i].add(lhs)`. -/
def diagProd (c : Symb) (i : Nat) (lhs : Symb) (t : Table) (prod : List Symb) :
    Table :=
  match prod with
  | [a] => if a = c then cellAdd t i i lhs else t
  | _ => t

/-- The diagonal pass for one position `i` (loop over `grammar.items()`). -/
def diagPos (g : Grammar) (c : Symb) (i : Nat) (t : Table) : Table :=
  g.foldl (fun t p => p.2.foldl (fun t prod => diagProd c i p.1 t prod) t) t

/-- Loop `for i in range(n): ...` — the whole diagonal pass. -/
def diagFill (g : Grammar) (s : List Char) : Table :=
  (List.range s.length).foldl
    (fun t i => diagPos g (chr (s.getD i ' ')) i t) emptyT

/-- One production of the upper-triangle pass: binary rules read
`table[start][split]` and `table[split+1][end]`; unary rules read the cell
`table[start][end]` being filled. -/
def upProd (t : Table) (i j k : Nat) (lhs : Symb) (prod : List Symb) : Table :=
  match prod with
  | [l, r] => if l ∈ t i k ∧ r ∈ t (k + 1) j then cellAdd t i j lhs else t
  | [u] => if u ∈ t i j then cellAdd t i j lhs else t
  | _ => t

/-- Loops `for lhs, rhs_list in grammar.items(): for production in rhs_list: ...`
at a fixed `start = i`, `end = j`, `split = k`. -/
def upSplit (g : Grammar) (i j k : Nat) (t : Table) : Table :=
  g.foldl (fun t p => p.2.foldl (fun t prod => upProd t i j k p.1 prod) t) t

/-- Loop `for split in range(start, end): ...` for the cell `(i, j)`. -/
def upCell (g : Grammar) (i j : Nat) (t : Table) : Table :=
  (List.range' i (j - i)).foldl (fun t k => upSplit g i j k t) t

/-- Loop `for start in range(n - length + 1): ...` at a fixed span length `L`. -/
def upLen (g : Grammar) (n L : Nat) (t : Table) : Table :=
  (List.range (n - L + 1)).foldl
    (fun t start => upCell g start (start + L - 1) t) t

/-- The table after the diagonal pass and the span lengths `2..L`. -/
def tableUpTo (g : Grammar) (s : List Char) (L : Nat) : Table :=
  (List.range' 2 (L - 1)).foldl (fun t len => upLen g s.length len t)
    (diagFill g s)

/-- The finished CYK table of `main.py`'s `cyk_parser`
(`for length in range(2, n + 1)`). -/
def cykTable (g : Grammar) (s : List Char) : Table :=
  tableUpTo g s s.length

/-- Statement `return len(table[0][n - 1]) > 0, table` — the membership verdict. -/
def cykAccept (g : Grammar) (s : List Char) : Bool :=
  !(cykTable g s 0 (s.length - 1)).isEmpty

/-- Function `cyk_parser` of `main.py` including its guard
`if not input_string: raise ValueError("Input string cannot be empty.")`. -/
def cykParser (g : Grammar) (s : List Char) :
    Except String (Bool × Table) :=
  if s = [] then .error "Input string cannot be empty."
  else .ok (cykAccept g s, cykTable g s)

end MainPy

namespace ParserPy

/-!  `parser.py`, `cyk_parser` (lines 3-33).  -/

/-- Dict `rules = {tuple(rhs): lhs for lhs, rhs_list in grammar.items()
for rhs in rhs_list}` as an ordered list of dict insertions. -/
def rulesList (g : Grammar) : List (List Symb × Symb) :=
  (g.map (fun p => p.2.map (fun rhs => (rhs, p.1)))).flatten

/-- Dict lookup: a later insertion with the same key overrides an earlier
one, so the last matching entry wins. -/
def rulesGet (g : Grammar) (rhs : List Symb) : Option Symb :=
  (rulesList g).foldl (fun acc e => if e.1 = rhs then some e.2 else acc) none

/-- The diagonal pass: `if [symbol] in rhs_list: table[i][i].add(lhs)`. -/
def diagPos (g : Grammar) (c : Symb) (i : Nat) (t : Table) : Table :=
  g.foldl (fun t p => if [c] ∈ p.2 then cellAdd t i i p.1 else t) t

def diagFill (g : Grammar) (s : List Char) : Table :=
  (List.range s.length).foldl
    (fun t i => diagPos g (chr (s.getD i ' ')) i t) emptyT

/-- Loops `for A in table[i][k]: for B in table[k+1][j]:
if (A, B) in rules: table[i][j].add(rules[(A, B)])`. -/
def upSplit (g : Grammar) (i j k : Nat) (t : Table) : Table :=
  (t i k).foldl
    (fun t A =>
      (t (k + 1) j).foldl
        (fun t B =>
          match rulesGet g [A, B] with
          | some lhs => cellAdd t i j lhs
          | none => t) t) t

def upCell (g : Grammar) (i j : Nat) (t : Table) : Table :=
  (List.range' i (j - i)).foldl (fun t k => upSplit g i j k t) t

def upLen (g : Grammar) (n L : Nat) (t : Table) : Table :=
  (List.range (n - L + 1)).foldl
    (fun t i => upCell g i (i + L - 1) t) t

/-- The table after the diagonal pass and the span lengths `2..L`. -/
def tableUpTo (g : Grammar) (s : List Char) (L : Nat) : Table :=
  (List.range' 2 (L - 1)).foldl (fun t len => upLen g s.length len t)
    (diagFill g s)

/-- The finished CYK table of `parser.py`'s `cyk_parser`. -/
def cykTable (g : Grammar) (s : List Char) : Table :=
  tableUpTo g s s.length

/-- Statement `return start_symbol in table[0][n - 1], table` with the hard-coded
`start_symbol = "S"`.  For the empty string `table` is `[]` and `table[0]`
raises `IndexError`, embedded as `none`. -/
def cykParser (g : Grammar) (s : List Char) : Option (Bool × Table) :=
  if s.length = 0 then none
  else some (decide ("S" ∈ cykTable g s 0 (s.length - 1)), cykTable g s)

/-- The boolean component of `parser.py`'s result. -/
def cykAcceptB (g : Grammar) (s : List Char) : Option Bool :=
  (cykParser g s).map Prod.fst

end ParserPy

namespace TreePy

/-!  `tree.py`, `build_derivation_tree` and its inner `helper` (lines 27-46).

Python's `Node(symbol, children)` is built by `helper` in exactly two shapes:
`Node(symbol, [Node(string[i])])` at the base case and
`Node(lhs, [left, right])` in the recursive case, where `left`/`right` are the
results of recursive calls and may be Python's `None`.  We embed the node
shapes as a tagged variant, with `pynone` standing for a `None` stored in a
children list. -/

inductive PNode where
  | pynone
  | leaf (symbol : Symb)
  | uno (symbol : Symb) (child : PNode)
  | bin (symbol : Symb) (left right : PNode)
  deriving Repr, DecidableEq

/-- Coercion of a possibly-`None` recursive result into a child slot. -/
def toP : Option PNode → PNode
  | none => .pynone
  | some t => t

/-- The first `(k, lhs, rhs)` hit by
`for k in range(i, j): for lhs, rhs_list in grammar.items():
for rhs in rhs_list: if len(rhs) == 2 and rhs[0] in table[i][k] and
rhs[1] in table[k + 1][j]: ...`. -/
def findSplit (g : Grammar) (t : Table) (i j : Nat) :
    Option (Nat × Symb × Symb × Symb) :=
  (List.range' i (j - i)).findSome? fun k =>
    g.findSome? fun p =>
      p.2.findSome? fun rhs =>
        match rhs with
        | [l, r] =>
            if l ∈ t i k ∧ r ∈ t (k + 1) j then some (k, p.1, l, r) else none
        | _ => none

/-- Function `helper(i, j, symbol)` with fuel; the Python recursion strictly decreases
the span `j - i`, so fuel `j - i + 1` reproduces it exactly. -/
def helperF (g : Grammar) (t : Table) (s : List Char) :
    Nat → Nat → Nat → Symb → Option PNode
  | 0, _, _, _ => none
  | fuel + 1, i, j, symbol =>
      if i = j then some (.uno symbol (.leaf (chr (s.getD i ' '))))
      else
        match findSplit g t i j with
        | some (k, lhs, l, r) =>
            some (.bin lhs (toP (helperF g t s fuel i k l))
              (toP (helperF g t s fuel (k + 1) j r)))
        | none => none

/-- Function `build_derivation_tree(table, grammar, string)` of `tree.py`: hard-coded
`start_symbol = "S"`, then `helper(0, n - 1, start_symbol)`. -/
def buildDerivationTree (t : Table) (g : Grammar) (s : List Char) :
    Option PNode :=
  let n := s.length
  if "S" ∈ t 0 (n - 1) then helperF g t s n 0 (n - 1) "S" else none

/-- Concatenation of the leaf terminals of a tree, left to right. -/
def pYield : PNode → String
  | .pynone => ""
  | .leaf c => c
  | .uno _ c => pYield c
  | .bin _ l r => pYield l ++ pYield r

end TreePy

namespace MainPy

/-!  `main.py`, `build_derivation_tree` (lines 49-102).

The Python function mutates a graph of `Node` objects (a node can be appended
to several parents, or even to itself), so we embed the heap explicitly: a
node is an index into a list of records, and `children` is a list of indices.
The worklist `stack` holds `(i, j, symbol, parent_node)` items; Python's
`stack.pop()` removes the last element, embedded with the list head as the
top of the stack (pushes are therefore reversed-appended). -/

structure HNode where
  symbol : Symb
  children : List Nat
  deriving Repr, DecidableEq

structure BState where
  stack : List (Nat × Nat × Symb × Option Nat)
  nodes : List ((Nat × Nat × Symb) × Nat)
  heap : List HNode
  root : Option Nat
  deriving Repr

/-- Python `heap[pid].children.append(cid)`. -/
def appendChild (heap : List HNode) (pid cid : Nat) : List HNode :=
  match heap.get? pid with
  | some nd => heap.set pid ⟨nd.symbol, nd.children ++ [cid]⟩
  | none => heap

/-- The `(i, j, symbol)` triples pushed while processing a non-diagonal item,
in push order.  For each `lhs`: a binary rule pushes both children of the
first matching split (`break` leaves only the `k` loop); a unary rule whose
symbol is in the cell pushes it and `break`s out of the `rhs` loop. -/
def pushListRhss (t : Table) (i j : Nat) :
    List (List Symb) → List (Nat × Nat × Symb)
  | [] => []
  | rhs :: rest =>
      match rhs with
      | [l, r] =>
          (match (List.range' i (j - i)).find?
              (fun k => decide (l ∈ t i k) && decide (r ∈ t (k + 1) j)) with
            | some k => [(i, k, l), (k + 1, j, r)]
            | none => []) ++ pushListRhss t i j rest
      | [u] =>
          if u ∈ t i j then [(i, j, u)] else pushListRhss t i j rest
      | _ => pushListRhss t i j rest

def pushList (g : Grammar) (t : Table) (i j : Nat) :
    List (Nat × Nat × Symb) :=
  (g.map (fun p => pushListRhss t i j p.2)).flatten

/-- One iteration of the `while stack:` loop, given the popped item and the
rest of the stack. -/
def stepItem (g : Grammar) (t : Table) (s : List Char)
    (it : Nat × Nat × Symb × Option Nat)
    (rest : List (Nat × Nat × Symb × Option Nat)) (st : BState) : BState :=
  let i := it.1
  let j := it.2.1
  let symbol := it.2.2.1
  let parent := it.2.2.2
  -- `if (i, j, symbol) in nodes: ... else: node = Node(symbol); nodes[...] = node`
  let found := st.nodes.find? (fun e => e.1 = (i, j, symbol))
  let nid : Nat :=
    match found with
    | some e => e.2
    | none => st.heap.length
  let nodes : List ((Nat × Nat × Symb) × Nat) :=
    match found with
    | some _ => st.nodes
    | none => st.nodes ++ [((i, j, symbol), st.heap.length)]
  let heap : List HNode :=
    match found with
    | some _ => st.heap
    | none => st.heap ++ [⟨symbol, []⟩]
  -- `if parent_node: parent_node.children.append(node)`
  let heap :=
    match parent with
    | some pid => appendChild heap pid nid
    | none => heap
  -- `if root is None: root = node`
  let root := match st.root with | none => some nid | some r => some r
  if i = j then
    -- `node.children.append(Node(string[i])); continue`
    let lid := heap.length
    let heap := appendChild (heap ++ [⟨chr (s.getD i ' '), []⟩]) nid lid
    BState.mk rest nodes heap root
  else
    BState.mk
      (((pushList g t i j).map
          (fun q => (q.1, q.2.1, q.2.2, some nid))).reverse ++ rest)
      nodes heap root

/-- The `while stack:` loop with fuel; `none` means the fuel ran out with the
stack still non-empty (the Python loop is still running). -/
def buildLoop (g : Grammar) (t : Table) (s : List Char) :
    Nat → BState → Option BState
  | 0, st => if st.stack.isEmpty then some st else none
  | fuel + 1, st =>
      match st.stack with
      | [] => some st
      | it :: rest => buildLoop g t s fuel (stepItem g t s it rest st)

/-- Python `list(grammar.keys())[0]` — the first key of the grammar. -/
def startSymbol (g : Grammar) : Symb := (g.headD ("", [])).1
-- For an empty grammar Python raises IndexError here; the default head is
-- only a totalisation artifact, and theorems about `startSymbol` assume a
-- non-empty grammar.

/-- Function `build_derivation_tree` of `main.py` with fuel.  `some (none, _)` is the
early `return None`; `some (some r, heap)` is a returned tree rooted at heap
index `r`; `none` means the loop has not finished within `fuel` iterations. -/
def buildDerivationTree (fuel : Nat) (t : Table) (g : Grammar)
    (s : List Char) : Option (Option Nat × List HNode) :=
  let n := s.length
  if startSymbol g ∈ t 0 (n - 1) then
    (buildLoop g t s fuel ⟨[(0, n - 1, startSymbol g, none)], [], [], none⟩).map
      (fun st => (st.root, st.heap))
  else some (none, [])

/-- Concatenation of the leaf terminals reachable from a heap node, left to
right, with fuel (the heap built by `build_derivation_tree` can be cyclic). -/
def walkYield (heap : List HNode) : Nat → Nat → String
  | 0, _ => ""
  | fuel + 1, id =>
      match heap.get? id with
      | none => ""
      | some nd =>
          if nd.children.isEmpty then nd.symbol
          else (nd.children.map (fun c => walkYield heap fuel c)).foldl
            (· ++ ·) ""

end MainPy

/-!  Derivations.  `SDer g syms w` says the sentential form `syms` derives
the terminal word `w`: a symbol that is not a grammar key is a terminal and
derives its own character; a grammar key derives the concatenation of what
one of its productions derives.  `Derives g x w` is a full derivation from
the single symbol `x`; this formalises the spec's "an exhaustive search finds
at least one derivation". -/

inductive SDer (g : Grammar) : List Symb → List Char → Prop where
  | nil : SDer g [] []
  | term (c : Char) (rest : List Symb) (w : List Char) :
      chr c ∉ keys g → SDer g rest w → SDer g (chr c :: rest) (c :: w)
  | nonterm (x : Symb) (rhss : List (List Symb)) (rhs : List Symb)
      (rest : List Symb) (w1 w2 : List Char) :
      (x, rhss) ∈ g → rhs ∈ rhss → SDer g rhs w1 → SDer g rest w2 →
      SDer g (x :: rest) (w1 ++ w2)

def Derives (g : Grammar) (x : Symb) (w : List Char) : Prop :=
  SDer g [x] w

/-- A production is in Chomsky normal form: either a single terminal symbol
that is not a grammar key, or two nonterminal symbols that are grammar
keys. -/
def okProd (g : Grammar) (prod : List Symb) : Prop :=
  match prod with
  | [a] => a ∉ keys g
  | [l, r] => l ∈ keys g ∧ r ∈ keys g
  | _ => False

instance (g : Grammar) (prod : List Symb) : Decidable (okProd g prod) := by
  unfold okProd
  match prod with
  | [a] => exact inferInstanceAs (Decidable (_ ∉ _))
  | [] | [_, _] | _ :: _ :: _ :: _ => infer_instance

/-- The grammar is in Chomsky normal form. -/
def StrictCNF (g : Grammar) : Prop :=
  ∀ p ∈ g, ∀ prod ∈ p.2, okProd g prod

instance (g : Grammar) : Decidable (StrictCNF g) :=
  inferInstanceAs (Decidable (∀ _ ∈ _, ∀ _ ∈ _, _))

/-- The substring `string[i..j]` (both ends inclusive). -/
def sub (s : List Char) (i j : Nat) : List Char :=
  (s.drop i).take (j + 1 - i)

/-!  ## Lemma kit: table membership, monotonicity, stability  -/

theorem cellAdd_ne {t : Table} {a b i j : Nat} {x : Symb}
    (h : ¬(i = a ∧ j = b)) : cellAdd t a b x i j = t i j := by
  unfold cellAdd
  rw [if_neg h]

theorem mem_cellAdd {t : Table} {a b i j : Nat} {x y : Symb} :
    y ∈ cellAdd t a b x i j ↔ y ∈ t i j ∨ (i = a ∧ j = b ∧ y = x) := by
  unfold cellAdd
  split_ifs with h hx
  · obtain ⟨rfl, rfl⟩ := h
    constructor
    · exact fun hm => Or.inl hm
    · rintro (hm | ⟨-, -, rfl⟩)
      · exact hm
      · exact hx
  · obtain ⟨rfl, rfl⟩ := h
    simp [List.mem_append]
  · constructor
    · exact fun hm => Or.inl hm
    · rintro (hm | ⟨ha, hb, -⟩)
      · exact hm
      · exact (h ⟨ha, hb⟩).elim

/-- Pointwise containment between tables. -/
def TLE (t t' : Table) : Prop := ∀ i j x, x ∈ t i j → x ∈ t' i j

/-- Every cell of the table holds only grammar keys (left-hand sides). -/
def InKeys (g : Grammar) (t : Table) : Prop :=
  ∀ a b x, x ∈ t a b → x ∈ keys g

theorem TLE.refl (t : Table) : TLE t t := fun _ _ _ h => h

theorem TLE.trans {a b c : Table} (h1 : TLE a b) (h2 : TLE b c) : TLE a c :=
  fun i j x h => h2 i j x (h1 i j x h)

theorem TLE.cellAdd (t : Table) (a b : Nat) (x : Symb) :
    TLE t (cellAdd t a b x) :=
  fun _ _ _ h => mem_cellAdd.mpr (Or.inl h)

/-- A fold of pointwise-extensive steps is pointwise extensive. -/
theorem TLE.foldl {β : Type} (f : Table → β → Table)
    (hf : ∀ t b, TLE t (f t b)) :
    ∀ (l : List β) (t : Table), TLE t (l.foldl f t) := by
  intro l
  induction l with
  | nil => exact fun t => TLE.refl t
  | cons b l ih => exact fun t => (hf t b).trans (ih (f t b))

/-- A fold of steps that each leave the cell `(a, b)` unchanged leaves it
unchanged. -/
theorem foldl_cell_eq {β : Type} (f : Table → β → Table) (a b : Nat)
    (hf : ∀ t x, f t x a b = t a b) :
    ∀ (l : List β) (t : Table), (l.foldl f t) a b = t a b := by
  intro l
  induction l with
  | nil => exact fun t => rfl
  | cons x l ih => exact fun t => (ih (f t x)).trans (hf t x)

namespace MainPy

/-!  ### The diagonal pass of `main.py`  -/

theorem mem_diagProd {c : Symb} {i : Nat} {lhs : Symb} {t : Table}
    {prod : List Symb} {a b : Nat} {x : Symb} :
    x ∈ diagProd c i lhs t prod a b ↔
      x ∈ t a b ∨ (a = i ∧ b = i ∧ x = lhs ∧ prod = [c]) := by
  match prod with
  | [] => simp [diagProd]
  | [y] =>
      by_cases hy : y = c
      · subst hy
        simp [diagProd, mem_cellAdd]
      · simp only [diagProd, if_neg hy]
        simp [hy]
  | y :: z :: rest => simp [diagProd]

theorem mem_diagLhs {c : Symb} {i : Nat} {lhs : Symb}
    {prods : List (List Symb)} {a b : Nat} {x : Symb} :
    ∀ {t : Table},
      x ∈ (prods.foldl (fun t prod => diagProd c i lhs t prod) t) a b ↔
        x ∈ t a b ∨ (a = i ∧ b = i ∧ x = lhs ∧ [c] ∈ prods) := by
  induction prods with
  | nil => simp
  | cons p rest ih =>
      intro t
      rw [List.foldl_cons, ih, mem_diagProd]
      constructor
      · rintro ((h | ⟨ha, hb, hx, hp⟩) | ⟨ha, hb, hx, hm⟩)
        · exact Or.inl h
        · exact Or.inr ⟨ha, hb, hx, hp ▸ List.mem_cons_self _ _⟩
        · exact Or.inr ⟨ha, hb, hx, List.mem_cons_of_mem _ hm⟩
      · rintro (h | ⟨ha, hb, hx, hm⟩)
        · exact Or.inl (Or.inl h)
        · rcases List.mem_cons.mp hm with h | h
          · exact Or.inl (Or.inr ⟨ha, hb, hx, h.symm⟩)
          · exact Or.inr ⟨ha, hb, hx, h⟩

theorem mem_diagPos {g : Grammar} {c : Symb} {i : Nat} {a b : Nat} {x : Symb} :
    ∀ {t : Table},
      x ∈ diagPos g c i t a b ↔
        x ∈ t a b ∨
          (a = i ∧ b = i ∧ ∃ rhss, (x, rhss) ∈ g ∧ [c] ∈ rhss) := by
  unfold diagPos
  induction g with
  | nil => simp
  | cons p rest ih =>
      intro t
      rw [List.foldl_cons, ih, mem_diagLhs]
      constructor
      · rintro ((h | ⟨ha, hb, hx, hm⟩) | ⟨ha, hb, rhss, hg, hm⟩)
        · exact Or.inl h
        · exact Or.inr ⟨ha, hb, p.2, hx ▸ List.mem_cons_self _ _, hm⟩
        · exact Or.inr ⟨ha, hb, rhss, List.mem_cons_of_mem _ hg, hm⟩
      · rintro (h | ⟨ha, hb, rhss, hg, hm⟩)
        · exact Or.inl (Or.inl h)
        · rcases List.mem_cons.mp hg with h | h
          · refine Or.inl (Or.inr ⟨ha, hb, ?_, ?_⟩)
            · exact congrArg Prod.fst h.symm ▸ rfl
            · have : rhss = p.2 := congrArg Prod.snd h
              exact this ▸ hm
          · exact Or.inr ⟨ha, hb, rhss, h, hm⟩

theorem mem_diagFill {g : Grammar} {s : List Char} {a b : Nat} {x : Symb} :
    x ∈ diagFill g s a b ↔
      a = b ∧ a < s.length ∧
        ∃ rhss, (x, rhss) ∈ g ∧ [chr (s.getD a ' ')] ∈ rhss := by
  unfold diagFill
  have main :
      ∀ (l : List Nat) (t : Table),
        x ∈ (l.foldl (fun t i => diagPos g (chr (s.getD i ' ')) i t) t) a b ↔
          x ∈ t a b ∨
            (a = b ∧ a ∈ l ∧
              ∃ rhss, (x, rhss) ∈ g ∧ [chr (s.getD a ' ')] ∈ rhss) := by
    intro l
    induction l with
    | nil => simp
    | cons i rest ih =>
        intro t
        rw [List.foldl_cons, ih, mem_diagPos]
        constructor
        · rintro ((h | ⟨ha, hb, w⟩) | ⟨hab, hm, w⟩)
          · exact Or.inl h
          · exact Or.inr ⟨ha ▸ hb ▸ rfl, ha ▸ List.mem_cons_self _ _, ha ▸ w⟩
          · exact Or.inr ⟨hab, List.mem_cons_of_mem _ hm, w⟩
        · rintro (h | ⟨hab, hm, w⟩)
          · exact Or.inl (Or.inl h)
          · rcases List.mem_cons.mp hm with h | h
            · exact Or.inl (Or.inr ⟨h, hab ▸ h, h ▸ w⟩)
            · exact Or.inr ⟨hab, h, w⟩
  rw [main]
  simp [emptyT, List.mem_range]

/-!  ### The upper-triangle pass of `main.py`  -/

theorem mem_upProd {t : Table} {i j k : Nat} {lhs : Symb}
    {prod : List Symb} {a b : Nat} {x : Symb} :
    x ∈ upProd t i j k lhs prod a b ↔
      x ∈ t a b ∨
        (a = i ∧ b = j ∧ x = lhs ∧
          ((∃ l r, prod = [l, r] ∧ l ∈ t i k ∧ r ∈ t (k + 1) j) ∨
            (∃ u, prod = [u] ∧ u ∈ t i j))) := by
  match prod with
  | [] => simp [upProd]
  | [u] =>
      by_cases hu : u ∈ t i j
      · simp only [upProd, if_pos hu]
        rw [mem_cellAdd]
        simp [hu]
      · simp only [upProd, if_neg hu]
        simp [hu]
  | [l, r] =>
      by_cases hlr : l ∈ t i k ∧ r ∈ t (k + 1) j
      · simp only [upProd, if_pos hlr]
        rw [mem_cellAdd]
        simp only [List.cons.injEq, reduceCtorEq, and_false, false_and,
          exists_false, or_false]
        constructor
        · rintro (h | ⟨h1, h2, h3⟩)
          · exact Or.inl h
          · exact Or.inr ⟨h1, h2, h3, l, r, by simp, hlr.1, hlr.2⟩
        · rintro (h | ⟨h1, h2, h3, -⟩)
          · exact Or.inl h
          · exact Or.inr ⟨h1, h2, h3⟩
      · simp only [upProd, if_neg hlr]
        constructor
        · exact fun h => Or.inl h
        · rintro (h | ⟨-, -, -, (⟨l', r', heq, hl, hr⟩ | ⟨u, heq, -⟩)⟩)
          · exact h
          · cases heq
            exact (hlr ⟨hl, hr⟩).elim
          · cases heq
  | y :: z :: w :: rest => simp [upProd]

theorem upProd_ne {t : Table} {i j k : Nat} {lhs : Symb} {prod : List Symb}
    {a b : Nat} (h : ¬(a = i ∧ b = j)) :
    upProd t i j k lhs prod a b = t a b := by
  match prod with
  | [] => rfl
  | [u] =>
      simp only [upProd]
      split_ifs <;> [exact cellAdd_ne h; rfl]
  | [l, r] =>
      simp only [upProd]
      split_ifs <;> [exact cellAdd_ne h; rfl]
  | y :: z :: w :: rest => rfl

theorem upProd_extensive (t : Table) (i j k : Nat) (lhs : Symb)
    (prod : List Symb) : TLE t (upProd t i j k lhs prod) :=
  fun _ _ _ h => mem_upProd.mpr (Or.inl h)

theorem upSplit_ne {g : Grammar} {i j k : Nat} {a b : Nat}
    (h : ¬(a = i ∧ b = j)) (t : Table) :
    upSplit g i j k t a b = t a b := by
  refine foldl_cell_eq _ a b (fun t p => ?_) g t
  exact foldl_cell_eq _ a b (fun t prod => upProd_ne h) p.2 t

theorem upSplit_extensive (g : Grammar) (i j k : Nat) (t : Table) :
    TLE t (upSplit g i j k t) := by
  unfold upSplit
  exact TLE.foldl _
    (fun t p => TLE.foldl _ (fun t prod => upProd_extensive t i j k p.1 prod)
      p.2 t) g t

theorem upCell_ne {g : Grammar} {i j : Nat} {a b : Nat}
    (h : ¬(a = i ∧ b = j)) (t : Table) :
    upCell g i j t a b = t a b :=
  foldl_cell_eq _ a b (fun t k => upSplit_ne h t) _ t

theorem upCell_extensive (g : Grammar) (i j : Nat) (t : Table) :
    TLE t (upCell g i j t) :=
  TLE.foldl _ (fun t k => upSplit_extensive g i j k t) _ t

theorem upLen_extensive (g : Grammar) (n L : Nat) (t : Table) :
    TLE t (upLen g n L t) :=
  TLE.foldl _ (fun t st => upCell_extensive g st (st + L - 1) t) _ t

/-- Lemma: `upLen` touches only cells whose span is exactly `L`. -/
theorem upLen_ne {g : Grammar} {n L : Nat} {a b : Nat} (hL : 1 ≤ L)
    (h : b + 1 - a ≠ L ∨ a > b) (t : Table) :
    upLen g n L t a b = t a b := by
  refine foldl_cell_eq _ a b (fun t st => ?_) _ t
  refine upCell_ne (fun hc => ?_) t
  obtain ⟨rfl, rfl⟩ := hc
  rcases h with h | h
  · exact h (by omega)
  · omega

theorem upLhs_ne {i j k : Nat} {lhs : Symb} {prods : List (List Symb)}
    {a b : Nat} (h : ¬(a = i ∧ b = j)) (t : Table) :
    (prods.foldl (fun t prod => upProd t i j k lhs prod) t) a b = t a b :=
  foldl_cell_eq _ a b (fun t prod => upProd_ne h) prods t

/-- Everything in the result of one `(lhs, prods)` pass either was already
there or is `lhs` added at `(i, j)` for a reason read off the table. -/
theorem mem_upLhs_elim {i j k : Nat} (hik : i ≤ k) (hkj : k < j)
    {lhs : Symb} {prods : List (List Symb)} {a b : Nat} {x : Symb} :
    ∀ {t : Table},
      x ∈ (prods.foldl (fun t prod => upProd t i j k lhs prod) t) a b →
        x ∈ t a b ∨
          (a = i ∧ b = j ∧ x = lhs ∧
            ((∃ l r, [l, r] ∈ prods ∧ l ∈ t i k ∧ r ∈ t (k + 1) j) ∨
              (∃ u, [u] ∈ prods ∧
                u ∈ (prods.foldl (fun t prod => upProd t i j k lhs prod) t)
                  i j))) := by
  induction prods with
  | nil => exact fun h => Or.inl h
  | cons p rest ih =>
      intro t h
      rw [List.foldl_cons] at h
      have hikj : ¬(i = i ∧ k = j) := fun hc => absurd hc.2 (Nat.ne_of_lt hkj)
      have hkji : ¬(k + 1 = i ∧ j = j) := fun hc => by omega
      rcases ih h with h0 | ⟨ha, hb, hx, hr⟩
      · rcases mem_upProd.mp h0 with h1 | ⟨ha, hb, hx, hr⟩
        · exact Or.inl h1
        · refine Or.inr ⟨ha, hb, hx, ?_⟩
          rcases hr with ⟨l, r, hp, hl, hr⟩ | ⟨u, hp, hu⟩
          · exact Or.inl ⟨l, r, hp ▸ List.mem_cons_self _ _, hl, hr⟩
          · refine Or.inr ⟨u, hp ▸ List.mem_cons_self _ _, ?_⟩
            have := TLE.foldl (fun t prod => upProd t i j k lhs prod)
              (fun t prod => upProd_extensive t i j k lhs prod) rest
              (upProd t i j k lhs p)
            exact this i j u (upProd_extensive t i j k lhs p i j u hu)
      · refine Or.inr ⟨ha, hb, hx, ?_⟩
        rcases hr with ⟨l, r, hp, hl, hr⟩ | ⟨u, hp, hu⟩
        · rw [upProd_ne hikj] at hl
          rw [upProd_ne hkji] at hr
          exact Or.inl ⟨l, r, List.mem_cons_of_mem _ hp, hl, hr⟩
        · exact Or.inr ⟨u, List.mem_cons_of_mem _ hp, hu⟩

theorem mem_upSplit_elim {g : Grammar} {i j k : Nat} (hik : i ≤ k)
    (hkj : k < j) {a b : Nat} {x : Symb} :
    ∀ {t : Table},
      x ∈ upSplit g i j k t a b →
        x ∈ t a b ∨
          (a = i ∧ b = j ∧ ∃ rhss prod, (x, rhss) ∈ g ∧ prod ∈ rhss ∧
            ((∃ l r, prod = [l, r] ∧ l ∈ t i k ∧ r ∈ t (k + 1) j) ∨
              (∃ u, prod = [u] ∧ u ∈ upSplit g i j k t i j))) := by
  have hikj : ¬(i = i ∧ k = j) := fun hc => absurd hc.2 (Nat.ne_of_lt hkj)
  have hkji : ¬(k + 1 = i ∧ j = j) := fun hc => by omega
  unfold upSplit
  induction g with
  | nil => exact fun h => Or.inl h
  | cons p rest ih =>
      intro t h
      rw [List.foldl_cons] at h
      rcases ih h with h0 | ⟨ha, hb, rhss, prod, hg, hp, hr⟩
      · rcases mem_upLhs_elim hik hkj h0 with h1 | ⟨ha, hb, hx, hr⟩
        · exact Or.inl h1
        · refine Or.inr ⟨ha, hb, p.2, ?_⟩
          rcases hr with ⟨l, r, hp, hl, hr⟩ | ⟨u, hp, hu⟩
          · exact ⟨[l, r], hx ▸ List.mem_cons_self _ _, hp, Or.inl
              ⟨l, r, rfl, hl, hr⟩⟩
          · refine ⟨[u], hx ▸ List.mem_cons_self _ _, hp, Or.inr
              ⟨u, rfl, ?_⟩⟩
            have hext := TLE.foldl
              (fun (t : Table) (q : Symb × List (List Symb)) =>
                q.2.foldl (fun t prod => upProd t i j k q.1 prod) t)
              (fun t q => TLE.foldl _
                (fun t prod => upProd_extensive t i j k q.1 prod) q.2 t)
              rest (p.2.foldl (fun t prod => upProd t i j k p.1 prod) t)
            exact hext i j u hu
      · refine Or.inr ⟨ha, hb, rhss, prod, List.mem_cons_of_mem _ hg, hp, ?_⟩
        rcases hr with ⟨l, r, hpe, hl, hr⟩ | ⟨u, hpe, hu⟩
        · rw [upLhs_ne hikj] at hl
          rw [upLhs_ne hkji] at hr
          exact Or.inl ⟨l, r, hpe, hl, hr⟩
        · exact Or.inr ⟨u, hpe, hu⟩

theorem mem_upCellAux_elim {g : Grammar} {i j : Nat} {a b : Nat} {x : Symb} :
    ∀ (ks : List Nat), (∀ k ∈ ks, i ≤ k ∧ k < j) →
      ∀ {t : Table},
        x ∈ (ks.foldl (fun t k => upSplit g i j k t) t) a b →
          x ∈ t a b ∨
            (a = i ∧ b = j ∧ ∃ rhss prod, (x, rhss) ∈ g ∧ prod ∈ rhss ∧
              ((∃ k l r, i ≤ k ∧ k < j ∧ prod = [l, r] ∧ l ∈ t i k ∧
                  r ∈ t (k + 1) j) ∨
                (∃ u, prod = [u] ∧
                  u ∈ (ks.foldl (fun t k => upSplit g i j k t) t) i j))) := by
  intro ks
  induction ks with
  | nil =>
      intro _ t h
      exact Or.inl h
  | cons k0 rest ih =>
      intro hks t h
      rw [List.foldl_cons] at h
      obtain ⟨hik0, hk0j⟩ := hks k0 (List.mem_cons_self _ _)
      have hrest : ∀ k ∈ rest, i ≤ k ∧ k < j :=
        fun k hk => hks k (List.mem_cons_of_mem _ hk)
      rcases ih hrest h with h0 | ⟨ha, hb, rhss, prod, hg, hp, hr⟩
      · rcases mem_upSplit_elim hik0 hk0j h0 with h1 |
          ⟨ha, hb, rhss, prod, hg, hp, hr⟩
        · exact Or.inl h1
        · refine Or.inr ⟨ha, hb, rhss, prod, hg, hp, ?_⟩
          rcases hr with ⟨l, r, hpe, hl, hr⟩ | ⟨u, hpe, hu⟩
          · exact Or.inl ⟨k0, l, r, hik0, hk0j, hpe, hl, hr⟩
          · refine Or.inr ⟨u, hpe, ?_⟩
            have hext := TLE.foldl (fun t k => upSplit g i j k t)
              (fun t k => upSplit_extensive g i j k t) rest
              (upSplit g i j k0 t)
            exact hext i j u hu
      · refine Or.inr ⟨ha, hb, rhss, prod, hg, hp, ?_⟩
        rcases hr with ⟨k, l, r, hik, hkj, hpe, hl, hr⟩ | ⟨u, hpe, hu⟩
        · have h1 : ¬(i = i ∧ k = j) := fun hc => absurd hc.2 (Nat.ne_of_lt hkj)
          have h2 : ¬(k + 1 = i ∧ j = j) := fun hc => by omega
          rw [upSplit_ne h1] at hl
          rw [upSplit_ne h2] at hr
          exact Or.inl ⟨k, l, r, hik, hkj, hpe, hl, hr⟩
        · exact Or.inr ⟨u, hpe, hu⟩

theorem mem_upCell_elim {g : Grammar} {i j : Nat} (hij : i < j)
    {a b : Nat} {x : Symb} {t : Table} (h : x ∈ upCell g i j t a b) :
    x ∈ t a b ∨
      (a = i ∧ b = j ∧ ∃ rhss prod, (x, rhss) ∈ g ∧ prod ∈ rhss ∧
        ((∃ k l r, i ≤ k ∧ k < j ∧ prod = [l, r] ∧ l ∈ t i k ∧
            r ∈ t (k + 1) j) ∨
          (∃ u, prod = [u] ∧ u ∈ upCell g i j t i j))) := by
  have hks : ∀ k ∈ List.range' i (j - i), i ≤ k ∧ k < j := by
    intro k hk
    rcases List.mem_range'_1.mp hk with ⟨h1, h2⟩
    exact ⟨h1, by omega⟩
  exact @mem_upCellAux_elim g i j a b x (List.range' i (j - i)) hks t h

theorem mem_upLenAux_elim {g : Grammar} {n L : Nat} (hL : 2 ≤ L)
    {a b : Nat} {x : Symb} :
    ∀ (sts : List Nat), (∀ st ∈ sts, st + L ≤ n) →
      ∀ {t : Table},
        x ∈ (sts.foldl (fun t st => upCell g st (st + L - 1) t) t) a b →
          x ∈ t a b ∨
            (b = a + L - 1 ∧ a + L ≤ n ∧
              ∃ rhss prod, (x, rhss) ∈ g ∧ prod ∈ rhss ∧
                ((∃ k l r, a ≤ k ∧ k < b ∧ prod = [l, r] ∧ l ∈ t a k ∧
                    r ∈ t (k + 1) b) ∨
                  (∃ u, prod = [u] ∧
                    u ∈ (sts.foldl (fun t st => upCell g st (st + L - 1) t) t)
                      a b))) := by
  intro sts
  induction sts with
  | nil =>
      intro _ t h
      exact Or.inl h
  | cons s0 rest ih =>
      intro hsts t h
      rw [List.foldl_cons] at h
      have hs0 : s0 + L ≤ n := hsts s0 (List.mem_cons_self _ _)
      have hrest : ∀ st ∈ rest, st + L ≤ n :=
        fun st hst => hsts st (List.mem_cons_of_mem _ hst)
      have hij : s0 < s0 + L - 1 := by omega
      rcases ih hrest h with h0 | ⟨hb, han, rhss, prod, hg, hp, hr⟩
      · rcases mem_upCell_elim hij h0 with h1 |
          ⟨ha, hb, rhss, prod, hg, hp, hr⟩
        · exact Or.inl h1
        · subst ha
          subst hb
          refine Or.inr ⟨by omega, by omega, rhss, prod, hg, hp, ?_⟩
          rcases hr with ⟨k, l, r, hik, hkj, hpe, hl, hr⟩ | ⟨u, hpe, hu⟩
          · exact Or.inl ⟨k, l, r, hik, hkj, hpe, hl, hr⟩
          · refine Or.inr ⟨u, hpe, ?_⟩
            have hext := TLE.foldl
              (fun t st => upCell g st (st + L - 1) t)
              (fun t st => upCell_extensive g st (st + L - 1) t) rest
              (upCell g a (a + L - 1) t)
            exact hext a (a + L - 1) u hu
      · refine Or.inr ⟨hb, han, rhss, prod, hg, hp, ?_⟩
        rcases hr with ⟨k, l, r, hak, hkb, hpe, hl, hr⟩ | ⟨u, hpe, hu⟩
        · have h1 : ¬(a = s0 ∧ k = s0 + L - 1) := fun hc => by omega
          have h2 : ¬(k + 1 = s0 ∧ b = s0 + L - 1) := fun hc => by omega
          rw [upCell_ne h1] at hl
          rw [upCell_ne h2] at hr
          exact Or.inl ⟨k, l, r, hak, hkb, hpe, hl, hr⟩
        · exact Or.inr ⟨u, hpe, hu⟩

theorem mem_upLen_elim {g : Grammar} {n L : Nat} (hL : 2 ≤ L) (hLn : L ≤ n)
    {a b : Nat} {x : Symb} {t : Table} (h : x ∈ upLen g n L t a b) :
    x ∈ t a b ∨
      (b = a + L - 1 ∧ a + L ≤ n ∧
        ∃ rhss prod, (x, rhss) ∈ g ∧ prod ∈ rhss ∧
          ((∃ k l r, a ≤ k ∧ k < b ∧ prod = [l, r] ∧ l ∈ t a k ∧
              r ∈ t (k + 1) b) ∨
            (∃ u, prod = [u] ∧ u ∈ upLen g n L t a b))) := by
  have hsts : ∀ st ∈ List.range (n - L + 1), st + L ≤ n := by
    intro st hst
    have := List.mem_range.mp hst
    omega
  exact @mem_upLenAux_elim g n L hL a b x (List.range (n - L + 1)) hsts t h

/-!  ### Decomposition and stability of the length-by-length fold  -/

theorem tableUpTo_one {g : Grammar} {s : List Char} :
    tableUpTo g s 1 = diagFill g s := rfl

theorem tableUpTo_succ {g : Grammar} {s : List Char} {L : Nat} (hL : 2 ≤ L) :
    tableUpTo g s L = upLen g s.length L (tableUpTo g s (L - 1)) := by
  unfold tableUpTo
  have h1 : L - 1 = (L - 2) + 1 := by omega
  have h2 : List.range' 2 ((L - 2) + 1) =
      List.range' 2 (L - 2) ++ [2 + 1 * (L - 2)] := List.range'_concat 2 (L - 2)
  have h3 : 2 + 1 * (L - 2) = L := by omega
  rw [h1, h2, h3, List.foldl_append]
  have h4 : L - 2 + 1 - 1 = L - 2 := by omega
  rw [h4]
  rfl

theorem tableUpTo_mono {g : Grammar} {s : List Char} {L L' : Nat}
    (h1 : 1 ≤ L) (h : L ≤ L') :
    TLE (tableUpTo g s L) (tableUpTo g s L') := by
  induction L', h using Nat.le_induction with
  | base => exact TLE.refl _
  | succ L' hLL ih =>
      have h2 : 2 ≤ L' + 1 := by omega
      rw [tableUpTo_succ h2]
      have h3 : L' + 1 - 1 = L' := by omega
      rw [h3]
      exact ih.trans (upLen_extensive g s.length (L' + 1) (tableUpTo g s L'))

/-- A cell whose span fits inside the lengths already processed is final. -/
theorem tableUpTo_stable {g : Grammar} {s : List Char} {L L' : Nat}
    {a b : Nat} (hab : a ≤ b) (h1 : 1 ≤ L) (hspan : b + 1 - a ≤ L)
    (h : L ≤ L') :
    tableUpTo g s L' a b = tableUpTo g s L a b := by
  induction L', h using Nat.le_induction with
  | base => rfl
  | succ L' hLL ih =>
      have h2 : 2 ≤ L' + 1 := by omega
      rw [tableUpTo_succ h2]
      have h3 : L' + 1 - 1 = L' := by omega
      rw [h3]
      rw [upLen_ne (by omega) (Or.inl (by omega)) (tableUpTo g s L')]
      exact ih

theorem cykTable_eq_tableUpTo {g : Grammar} {s : List Char} :
    cykTable g s = tableUpTo g s s.length := rfl

/-- The diagonal of the finished table is exactly the diagonal pass. -/
theorem cykTable_diag {g : Grammar} {s : List Char} {i : Nat} :
    cykTable g s i i = diagFill g s i i := by
  rcases Nat.lt_or_ge s.length 2 with h | h
  · unfold cykTable tableUpTo
    have : s.length - 1 = 0 := by omega
    rw [this]
    rfl
  · have := @tableUpTo_stable g s 1 s.length i i (Nat.le_refl i)
      (Nat.le_refl 1) (by omega) (by omega)
    exact this.trans rfl

/-!  ### Every cell only ever holds grammar keys  -/

theorem inKeys_foldl {g : Grammar} {β : Type} (l : List β)
    (f : Table → β → Table)
    (hf : ∀ t x, x ∈ l → InKeys g t → InKeys g (f t x)) :
    ∀ {t : Table}, InKeys g t → InKeys g (l.foldl f t) := by
  induction l with
  | nil => exact fun h => h
  | cons x rest ih =>
      intro t ht
      rw [List.foldl_cons]
      exact ih (fun t y hy => hf t y (List.mem_cons_of_mem _ hy))
        (hf t x (List.mem_cons_self _ _) ht)

theorem inKeys_diagFill {g : Grammar} {s : List Char} :
    InKeys g (diagFill g s) := by
  intro a b x h
  rcases mem_diagFill.mp h with ⟨-, -, rhss, hg, -⟩
  exact List.mem_map.mpr ⟨(x, rhss), hg, rfl⟩

theorem inKeys_upProd {g : Grammar} {i j k : Nat} {lhs : Symb}
    {prod : List Symb} (hl : lhs ∈ keys g) {t : Table} (ht : InKeys g t) :
    InKeys g (upProd t i j k lhs prod) := by
  intro a b x h
  rcases mem_upProd.mp h with h0 | ⟨-, -, rfl, -⟩
  · exact ht a b x h0
  · exact hl

theorem inKeys_upSplit {g : Grammar} {i j k : Nat} {t : Table}
    (ht : InKeys g t) : InKeys g (upSplit g i j k t) := by
  unfold upSplit
  refine inKeys_foldl g _ (fun t p hp htt => ?_) ht
  refine inKeys_foldl _ _ (fun t prod _ htt => ?_) htt
  exact inKeys_upProd (List.mem_map.mpr ⟨p, hp, rfl⟩) htt

theorem inKeys_upCell {g : Grammar} {i j : Nat} {t : Table}
    (ht : InKeys g t) : InKeys g (upCell g i j t) := by
  unfold upCell
  exact inKeys_foldl _ _ (fun t k _ htt => inKeys_upSplit htt) ht

theorem inKeys_upLen {g : Grammar} {n L : Nat} {t : Table}
    (ht : InKeys g t) : InKeys g (upLen g n L t) := by
  unfold upLen
  exact inKeys_foldl _ _ (fun t st _ htt => inKeys_upCell htt) ht

theorem inKeys_tableUpTo {g : Grammar} {s : List Char} (L : Nat) :
    InKeys g (tableUpTo g s L) := by
  unfold tableUpTo
  exact inKeys_foldl _ _ (fun t len _ htt => inKeys_upLen htt) inKeys_diagFill

theorem inKeys_cykTable {g : Grammar} {s : List Char} :
    InKeys g (cykTable g s) := inKeys_tableUpTo s.length

/-!  ### Completeness direction: a witnessed split really is recorded  -/

theorem mem_upLhs_intro {i j k : Nat} (hik : i ≤ k) (hkj : k < j)
    {lhs : Symb} {l r : Symb} :
    ∀ (prods : List (List Symb)) (t : Table), [l, r] ∈ prods →
      l ∈ t i k → r ∈ t (k + 1) j →
      lhs ∈ (prods.foldl (fun t prod => upProd t i j k lhs prod) t) i j := by
  intro prods
  induction prods with
  | nil =>
      intro t h
      exact absurd h (List.not_mem_nil _)
  | cons p rest ih =>
      intro t hm hl hr
      rw [List.foldl_cons]
      rcases List.mem_cons.mp hm with rfl | hm
      · have hadd : lhs ∈ upProd t i j k lhs [l, r] i j := by
          rw [mem_upProd]
          exact Or.inr ⟨rfl, rfl, rfl, Or.inl ⟨l, r, rfl, hl, hr⟩⟩
        have hext := TLE.foldl (fun t prod => upProd t i j k lhs prod)
          (fun t prod => upProd_extensive t i j k lhs prod) rest
          (upProd t i j k lhs [l, r])
        exact hext i j lhs hadd
      · have hikj : ¬(i = i ∧ k = j) := fun hc => absurd hc.2 (Nat.ne_of_lt hkj)
        have hkji : ¬(k + 1 = i ∧ j = j) := fun hc => by omega
        refine ih (upProd t i j k lhs p) hm ?_ ?_
        · rw [upProd_ne hikj]
          exact hl
        · rw [upProd_ne hkji]
          exact hr

theorem mem_upSplit_intro {i j k : Nat} (hik : i ≤ k)
    (hkj : k < j) {x : Symb} {rhss : List (List Symb)} {l r : Symb} :
    ∀ (g' : Grammar) (t : Table), (x, rhss) ∈ g' → [l, r] ∈ rhss →
      l ∈ t i k → r ∈ t (k + 1) j →
      x ∈ (g'.foldl
        (fun t p => p.2.foldl (fun t prod => upProd t i j k p.1 prod) t) t)
        i j := by
  intro g'
  induction g' with
  | nil =>
      intro t h
      exact absurd h (List.not_mem_nil _)
  | cons p rest ih =>
      intro t hg hm hl hr
      rw [List.foldl_cons]
      rcases List.mem_cons.mp hg with rfl | hg
      · have hadd := @mem_upLhs_intro i j k hik hkj x l r rhss t hm hl hr
        have hext := TLE.foldl
          (fun (t : Table) (q : Symb × List (List Symb)) =>
            q.2.foldl (fun t prod => upProd t i j k q.1 prod) t)
          (fun t q => TLE.foldl _
            (fun t prod => upProd_extensive t i j k q.1 prod) q.2 t)
          rest (rhss.foldl (fun t prod => upProd t i j k x prod) t)
        exact hext i j x hadd
      · have hikj : ¬(i = i ∧ k = j) := fun hc => absurd hc.2 (Nat.ne_of_lt hkj)
        have hkji : ¬(k + 1 = i ∧ j = j) := fun hc => by omega
        refine ih (p.2.foldl (fun t prod => upProd t i j k p.1 prod) t) hg hm
          ?_ ?_
        · rw [upLhs_ne hikj]
          exact hl
        · rw [upLhs_ne hkji]
          exact hr

theorem mem_upCell_intro {g : Grammar} {i j k : Nat} (hik : i ≤ k)
    (hkj : k < j) {x : Symb} {rhss : List (List Symb)} {l r : Symb}
    {t : Table} (hg : (x, rhss) ∈ g) (hm : [l, r] ∈ rhss)
    (hl : l ∈ t i k) (hr : r ∈ t (k + 1) j) :
    x ∈ upCell g i j t i j := by
  have main : ∀ (ks : List Nat), k ∈ ks → ∀ t : Table, l ∈ t i k →
      r ∈ t (k + 1) j →
      x ∈ (ks.foldl (fun t k => upSplit g i j k t) t) i j := by
    intro ks
    induction ks with
    | nil =>
        intro hmem
        exact absurd hmem (List.not_mem_nil _)
    | cons k0 rest ih =>
        intro hmem t hl hr
        rw [List.foldl_cons]
        rcases List.mem_cons.mp hmem with rfl | hmem
        · have hadd : x ∈ upSplit g i j k t i j :=
            mem_upSplit_intro hik hkj g t hg hm hl hr
          have hext := TLE.foldl (fun t k => upSplit g i j k t)
            (fun t k => upSplit_extensive g i j k t) rest (upSplit g i j k t)
          exact hext i j x hadd
        · have hikj : ¬(i = i ∧ k = j) :=
            fun hc => absurd hc.2 (Nat.ne_of_lt hkj)
          have hkji : ¬(k + 1 = i ∧ j = j) := fun hc => by omega
          refine ih hmem (upSplit g i j k0 t) ?_ ?_
          · rw [upSplit_ne hikj]
            exact hl
          · rw [upSplit_ne hkji]
            exact hr
  exact main (List.range' i (j - i))
    (List.mem_range'_1.mpr ⟨hik, by omega⟩) t hl hr

theorem mem_upLen_intro {g : Grammar} {n L : Nat} (hL : 2 ≤ L)
    {a b k : Nat} (hb : b = a + L - 1) (han : a + L ≤ n)
    (hik : a ≤ k) (hkj : k < b) {x : Symb} {rhss : List (List Symb)}
    {l r : Symb} {t : Table} (hg : (x, rhss) ∈ g) (hm : [l, r] ∈ rhss)
    (hl : l ∈ t a k) (hr : r ∈ t (k + 1) b) :
    x ∈ upLen g n L t a b := by
  have main : ∀ (sts : List Nat), a ∈ sts → ∀ t : Table, l ∈ t a k →
      r ∈ t (k + 1) b →
      x ∈ (sts.foldl (fun t st => upCell g st (st + L - 1) t) t) a b := by
    intro sts
    induction sts with
    | nil =>
        intro hmem
        exact absurd hmem (List.not_mem_nil _)
    | cons s0 rest ih =>
        intro hmem t hl hr
        rw [List.foldl_cons]
        rcases List.mem_cons.mp hmem with rfl | hmem
        · have hadd : x ∈ upCell g a (a + L - 1) t a (a + L - 1) := by
            refine mem_upCell_intro hik (by omega) hg hm hl ?_
            rw [← hb]
            exact hr
          have hext := TLE.foldl (fun t st => upCell g st (st + L - 1) t)
            (fun t st => upCell_extensive g st (st + L - 1) t) rest
            (upCell g a (a + L - 1) t)
          rw [hb]
          exact hext a (a + L - 1) x hadd
        · have h1 : ¬(a = s0 ∧ k = s0 + L - 1) := fun hc => by omega
          have h2 : ¬(k + 1 = s0 ∧ b = s0 + L - 1) := fun hc => by omega
          refine ih hmem (upCell g s0 (s0 + L - 1) t) ?_ ?_
          · rw [upCell_ne h1]
            exact hl
          · rw [upCell_ne h2]
            exact hr
  refine main (List.range (n - L + 1)) (List.mem_range.mpr (by omega)) t hl hr

/-- Cells of span greater than all processed lengths are still the diagonal
pass (hence empty off the diagonal). -/
theorem tableUpTo_untouched {g : Grammar} {s : List Char} {a b : Nat} :
    ∀ {L : Nat}, L < b + 1 - a → tableUpTo g s L a b = diagFill g s a b := by
  intro L
  induction L with
  | zero => exact fun _ => rfl
  | succ L ih =>
      intro hspan
      rcases Nat.lt_or_ge L 1 with h1 | h1
      · have hL0 : L = 0 := by omega
        subst hL0
        rfl
      · have h2 : 2 ≤ L + 1 := by omega
        rw [tableUpTo_succ h2]
        have h3 : L + 1 - 1 = L := by omega
        rw [h3, upLen_ne (by omega) (Or.inl (by omega)) (tableUpTo g s L)]
        exact ih (by omega)

/-- The completed-table characterisation of an off-diagonal cell:
membership comes from a split and a binary production whose pieces are in the
completed table. -/
theorem mem_cykTable_upper_intro {g : Grammar} {s : List Char} {i j k : Nat}
    (hij : i < j) (hjn : j < s.length) (hik : i ≤ k) (hkj : k < j)
    {x : Symb} {rhss : List (List Symb)} {l r : Symb}
    (hg : (x, rhss) ∈ g) (hm : [l, r] ∈ rhss)
    (hl : l ∈ cykTable g s i k) (hr : r ∈ cykTable g s (k + 1) j) :
    x ∈ cykTable g s i j := by
  have hn := hjn
  set n := s.length with hn'
  set L := j + 1 - i with hL'
  have hL : 2 ≤ L := by omega
  have hLn : L ≤ n := by omega
  have hstep1 : cykTable g s i k = tableUpTo g s (L - 1) i k := by
    rw [cykTable_eq_tableUpTo]
    exact tableUpTo_stable hik (by omega) (by omega) (by omega)
  have hstep2 : cykTable g s (k + 1) j = tableUpTo g s (L - 1) (k + 1) j := by
    rw [cykTable_eq_tableUpTo]
    exact tableUpTo_stable (by omega) (by omega) (by omega) (by omega)
  rw [hstep1] at hl
  rw [hstep2] at hr
  have hup : x ∈ upLen g n L (tableUpTo g s (L - 1)) i j :=
    mem_upLen_intro hL (by omega) (by omega) hik hkj hg hm hl hr
  have hTL : x ∈ tableUpTo g s L i j := by
    rw [tableUpTo_succ hL]
    exact hup
  have hmono := @tableUpTo_mono g s L n (by omega) hLn
  rw [cykTable_eq_tableUpTo]
  exact hmono i j x hTL

/-- The cell-exactness theorem for `main.py`'s table builder on CNF
grammars: the diagonal holds exactly the matching terminal productions, and
every off-diagonal cell holds exactly the left-hand sides witnessed by a
split point and a binary production over the completed table. -/
theorem cykTable_exact {g : Grammar} (hcnf : StrictCNF g) {s : List Char} :
    (∀ i, i < s.length → ∀ x,
        (x ∈ cykTable g s i i ↔
          ∃ rhss, (x, rhss) ∈ g ∧ [chr (s.getD i ' ')] ∈ rhss)) ∧
    (∀ i j, i < j → j < s.length → ∀ x,
        (x ∈ cykTable g s i j ↔
          ∃ k, i ≤ k ∧ k < j ∧ ∃ rhss l r, (x, rhss) ∈ g ∧ [l, r] ∈ rhss ∧
            l ∈ cykTable g s i k ∧ r ∈ cykTable g s (k + 1) j)) := by
  constructor
  · intro i hi x
    rw [cykTable_diag, mem_diagFill]
    constructor
    · rintro ⟨-, -, w⟩
      exact w
    · intro w
      exact ⟨rfl, hi, w⟩
  · intro i j hij hjn x
    constructor
    · intro h
      set n := s.length with hn'
      set L := j + 1 - i with hL'
      have hL : 2 ≤ L := by omega
      have hLn : L ≤ n := by omega
      have hstable : cykTable g s i j = tableUpTo g s L i j := by
        rw [cykTable_eq_tableUpTo]
        exact tableUpTo_stable (by omega) (by omega) (by omega) (by omega)
      rw [hstable, tableUpTo_succ hL] at h
      rcases mem_upLen_elim hL hLn h with h0 | ⟨-, -, rhss, prod, hg, hp, hr⟩
      · rw [tableUpTo_untouched (by omega)] at h0
        rcases mem_diagFill.mp h0 with ⟨heq, -, -⟩
        omega
      · rcases hr with ⟨k, l, r, hik, hkj, rfl, hl, hrr⟩ | ⟨u, rfl, hu⟩
        · refine ⟨k, hik, hkj, rhss, l, r, hg, hp, ?_, ?_⟩
          · rw [cykTable_eq_tableUpTo, ← hn']
            have hst : tableUpTo g s n i k = tableUpTo g s (L - 1) i k :=
              tableUpTo_stable hik (by omega) (by omega) (by omega)
            rw [hst]
            exact hl
          · rw [cykTable_eq_tableUpTo, ← hn']
            have hst : tableUpTo g s n (k + 1) j =
                tableUpTo g s (L - 1) (k + 1) j :=
              tableUpTo_stable (by omega) (by omega) (by omega) (by omega)
            rw [hst]
            exact hrr
        · exfalso
          have hcell : u ∈ cykTable g s i j := by
            rw [hstable, tableUpTo_succ hL]
            exact hu
          have hukeys : u ∈ keys g := inKeys_cykTable i j u hcell
          have := hcnf (x, rhss) hg [u] hp
          exact absurd hukeys this
    · rintro ⟨k, hik, hkj, rhss, l, r, hg, hm, hl, hr⟩
      exact mem_cykTable_upper_intro hij hjn hik hkj hg hm hl hr

end MainPy

/-!  ### Substring arithmetic  -/

theorem sub_length {s : List Char} {i j : Nat} (hj : j < s.length) :
    (sub s i j).length = j + 1 - i := by
  unfold sub
  rw [List.length_take, List.length_drop]
  omega

theorem sub_singleton {s : List Char} {i : Nat} (hi : i < s.length) :
    sub s i i = [s.getD i ' '] := by
  unfold sub
  have h1 : i + 1 - i = 1 := by omega
  rw [h1, List.drop_eq_getElem_cons hi, List.getD_eq_getElem s ' ' hi]
  rfl

theorem sub_full {s : List Char} (hs : s ≠ []) :
    sub s 0 (s.length - 1) = s := by
  unfold sub
  have h1 : s.length - 1 + 1 - 0 = s.length := by
    have := List.length_pos.mpr hs
    omega
  rw [h1, List.drop_zero, List.take_length]

/-- Splitting a substring at an interior point. -/
theorem sub_split {s : List Char} {i j : Nat} {wb wc : List Char}
    (hij : i ≤ j) (hjn : j < s.length) (heq : wb ++ wc = sub s i j)
    (hb : 1 ≤ wb.length) (hc : 1 ≤ wc.length) :
    sub s i (i + wb.length - 1) = wb ∧
      sub s (i + wb.length) j = wc := by
  have hlen : wb.length + wc.length = j + 1 - i := by
    have hsl := @sub_length s i j hjn
    rw [← heq, List.length_append] at hsl
    omega
  constructor
  · unfold sub
    have h3 : i + wb.length - 1 + 1 - i = wb.length := by omega
    rw [h3]
    have h4 := congrArg (List.take wb.length) heq
    rw [List.take_left] at h4
    unfold sub at h4
    rw [List.take_take] at h4
    have h2 : wb.length ⊓ (j + 1 - i) = wb.length := inf_eq_left.mpr (by omega)
    rw [h2] at h4
    exact h4.symm
  · unfold sub
    have h4 := congrArg (List.drop wb.length) heq
    rw [List.drop_left] at h4
    unfold sub at h4
    rw [List.drop_take, List.drop_drop] at h4
    have h5 : j + 1 - i - wb.length = j + 1 - (i + wb.length) := by omega
    rw [h5] at h4
    exact h4.symm

/-!  ### Lengths of derivations under CNF  -/

theorem okProd_len {g : Grammar} {prod : List Symb} (h : okProd g prod) :
    1 ≤ prod.length := by
  unfold okProd at h
  match prod with
  | [a] => simp
  | [l, r] => simp
  | [] => exact absurd h (by simp)
  | a :: b :: c :: rest => exact absurd h (by simp)

theorem sder_len {g : Grammar} (hcnf : StrictCNF g) {syms : List Symb}
    {w : List Char} (h : SDer g syms w) : syms.length ≤ w.length := by
  induction h with
  | nil => exact Nat.le_refl 0
  | term c rest w hterm hrest ih => simpa using ih
  | nonterm x rhss rhs rest w1 w2 hg hrhs h1 h2 ih1 ih2 =>
      have hp : 1 ≤ rhs.length := okProd_len (hcnf (x, rhss) hg rhs hrhs)
      simp only [List.length_cons, List.length_append]
      omega

theorem sder_nil_inv {g : Grammar} {w : List Char} (h : SDer g [] w) :
    w = [] := by
  cases h
  rfl

/-- Re-packaging one derivation step as a singleton sentential
derivation. -/
theorem sder_single {g : Grammar} {x : Symb} {rhss : List (List Symb)}
    {rhs : List Symb} {w : List Char} (hg : (x, rhss) ∈ g)
    (hrhs : rhs ∈ rhss) (h : SDer g rhs w) : SDer g [x] w := by
  have := SDer.nonterm x rhss rhs [] w [] hg hrhs h SDer.nil
  simpa using this

/-!  ### `List.findSome?` as a first-match search  -/

theorem findSome_eq_some_mem {α β : Type} {l : List α} {f : α → Option β}
    {y : β} (h : l.findSome? f = some y) : ∃ x ∈ l, f x = some y := by
  induction l with
  | nil => simp [List.findSome?] at h
  | cons a rest ih =>
      rw [List.findSome?_cons] at h
      revert h
      match hfa : f a with
      | some z =>
          intro h
          have h' : some z = some y := h
          exact ⟨a, List.mem_cons_self _ _, by rw [hfa]; exact h'⟩
      | none =>
          intro h
          have h' : List.findSome? f rest = some y := h
          rcases ih h' with ⟨x, hx, hfx⟩
          exact ⟨x, List.mem_cons_of_mem _ hx, hfx⟩

theorem findSome_ne_none {α β : Type} {l : List α} {f : α → Option β}
    {x : α} (hx : x ∈ l) (hfx : f x ≠ none) : l.findSome? f ≠ none := by
  induction l with
  | nil => exact absurd hx (List.not_mem_nil _)
  | cons a rest ih =>
      rw [List.findSome?_cons]
      rcases List.mem_cons.mp hx with rfl | hx
      · revert hfx
        match f x with
        | some z => intro _ h; exact Option.noConfusion h
        | none => intro hfx; exact absurd rfl hfx
      · revert ih
        match f a with
        | some z => intro _ h; exact Option.noConfusion h
        | none => intro ih; exact ih hx

namespace MainPy

/-- CYK completeness for `main.py`'s table on CNF grammars: a nonterminal
deriving the substring `string[i..j]` is in cell `(i, j)` of the finished
table. -/
theorem sder_mem_cykTable {g : Grammar} (hcnf : StrictCNF g)
    {s : List Char} :
    ∀ (m i j : Nat) (x : Symb), j + 1 - i ≤ m → i ≤ j → j < s.length →
      x ∈ keys g → SDer g [x] (sub s i j) → x ∈ cykTable g s i j := by
  intro m
  induction m using Nat.strong_induction_on with
  | _ m ih =>
      intro i j x hm hij hjn hx hd
      generalize hweq : sub s i j = w at hd
      cases hd with
      | term c rest w0 hterm hrest => exact absurd hx hterm
      | nonterm x' rhss rhs rest w1 w2 hg hrhs h1 h2 =>
          have hw2 : w2 = [] := sder_nil_inv h2
          subst hw2
          rw [List.append_nil] at hweq
          have hok := hcnf (x, rhss) hg rhs hrhs
          match rhs, hrhs, hok, h1 with
          | [], hrhs, hok, h1 => exact absurd hok (by simp [okProd])
          | a :: b :: c :: r, hrhs, hok, h1 =>
              exact absurd hok (by simp [okProd])
          | [t], hrhs, hok, h1 =>
              have hok' : t ∉ keys g := hok
              cases h1 with
              | term c rest' w' hterm' hrest' =>
                  have hw' : w' = [] := sder_nil_inv hrest'
                  subst hw'
                  have hii : i = j := by
                    have hlen := @sub_length s i j hjn
                    rw [hweq] at hlen
                    simp at hlen
                    omega
                  subst hii
                  rw [sub_singleton hjn] at hweq
                  injection hweq with hc hrest2
                  refine ((cykTable_exact hcnf).1 i hjn x).mpr
                    ⟨rhss, hg, ?_⟩
                  rw [hc]
                  exact hrhs
              | nonterm t' rhss' rhs' rest' w1' w2' hg' hrhs' h1' h2' =>
                  exact absurd (List.mem_map.mpr ⟨(t, rhss'), hg', rfl⟩) hok'
          | [b, c], hrhs, hok, h1 =>
              have hok' : b ∈ keys g ∧ c ∈ keys g := hok
              cases h1 with
              | term c0 rest' w' hterm' hrest' => exact absurd hok'.1 hterm'
              | nonterm b' rhssB rhsB rest' wb w2' hgB hrhsB hdB hrest' =>
                  cases hrest' with
                  | term c1 rest'' wc hterm'' hrest'' =>
                      exact absurd hok'.2 hterm''
                  | nonterm c' rhssC rhsC rest'' wc w3 hgC hrhsC hdC hrest'' =>
                      have hw3 : w3 = [] := sder_nil_inv hrest''
                      subst hw3
                      rw [List.append_nil] at hweq
                      have hdb : SDer g [b] wb := sder_single hgB hrhsB hdB
                      have hdc : SDer g [c] wc := sder_single hgC hrhsC hdC
                      have hlb : 1 ≤ wb.length := by
                        have := sder_len hcnf hdb
                        simpa using this
                      have hlc : 1 ≤ wc.length := by
                        have := sder_len hcnf hdc
                        simpa using this
                      have hlen : wb.length + wc.length = j + 1 - i := by
                        have hsl := @sub_length s i j hjn
                        rw [hweq, List.length_append] at hsl
                        omega
                      obtain ⟨hsb, hsc⟩ := sub_split hij hjn hweq.symm hlb hlc
                      have hk1 : i + wb.length = (i + wb.length - 1) + 1 := by
                        omega
                      rw [hk1] at hsc
                      have hmb : b ∈ cykTable g s i (i + wb.length - 1) := by
                        refine ih (i + wb.length - 1 + 1 - i) (by omega) i
                          (i + wb.length - 1) b (by omega) (by omega)
                          (by omega) hok'.1 ?_
                        rw [hsb]
                        exact hdb
                      have hmc :
                          c ∈ cykTable g s (i + wb.length - 1 + 1) j := by
                        refine ih (j - (i + wb.length - 1)) (by omega)
                          (i + wb.length - 1 + 1) j c (by omega) (by omega)
                          hjn hok'.2 ?_
                        rw [hsc]
                        exact hdc
                      exact mem_cykTable_upper_intro (by omega) hjn (by omega)
                        (by omega) hg hrhs hmb hmc

end MainPy

/-!  ### Soundness of `tree.py`'s reconstruction over an exact table  -/

theorem sub_concat {s : List Char} {i k j : Nat} (hik : i ≤ k) (hkj : k < j) :
    sub s i k ++ sub s (k + 1) j = sub s i j := by
  unfold sub
  have h1 : j + 1 - i = (k + 1 - i) + (j - k) := by omega
  rw [h1, List.take_add]
  have h2 : List.drop (k + 1 - i) (List.drop i s) = List.drop (k + 1) s := by
    rw [List.drop_drop]
    congr 1
    omega
  have h3 : j + 1 - (k + 1) = j - k := by omega
  rw [h3, ← h2]

namespace TreePy

theorem findSplit_facts {g : Grammar} {t : Table} {i j : Nat}
    {k : Nat} {lhs l r : Symb}
    (h : findSplit g t i j = some (k, lhs, l, r)) :
    i ≤ k ∧ k < j ∧ (∃ rhss, (lhs, rhss) ∈ g ∧ [l, r] ∈ rhss) ∧
      l ∈ t i k ∧ r ∈ t (k + 1) j := by
  unfold findSplit at h
  rcases findSome_eq_some_mem h with ⟨k', hk', h2⟩
  rcases findSome_eq_some_mem h2 with ⟨p, hp, h3⟩
  rcases findSome_eq_some_mem h3 with ⟨rhs, hrhs, h4⟩
  rcases List.mem_range'_1.mp hk' with ⟨hik', hk'j⟩
  match rhs, hrhs, h4 with
  | [], hrhs, h4 => exact Option.noConfusion h4
  | [l'], hrhs, h4 => exact Option.noConfusion h4
  | l' :: r' :: z :: rest0, hrhs, h4 => exact Option.noConfusion h4
  | [l', r'], hrhs, h4 =>
      have h4' : (if l' ∈ t i k' ∧ r' ∈ t (k' + 1) j
          then some (k', p.1, l', r') else none) = some (k, lhs, l, r) := h4
      by_cases hc : l' ∈ t i k' ∧ r' ∈ t (k' + 1) j
      · rw [if_pos hc] at h4'
        have h5 : (k', p.1, l', r') = (k, lhs, l, r) := Option.some.inj h4'
        obtain ⟨hk, hlhs, hl, hr⟩ :
            k' = k ∧ p.1 = lhs ∧ l' = l ∧ r' = r := by
          have e1 := congrArg Prod.fst h5
          have e2 := congrArg (fun q => q.2.1) h5
          have e3 := congrArg (fun q => q.2.2.1) h5
          have e4 := congrArg (fun q => q.2.2.2) h5
          exact ⟨e1, e2, e3, e4⟩
        subst hk
        subst hlhs
        subst hl
        subst hr
        refine ⟨hik', by omega, ⟨p.2, ?_, hrhs⟩, hc.1, hc.2⟩
        have hpp : p = (p.1, p.2) := rfl
        rw [← hpp]
        exact hp
      · rw [if_neg hc] at h4'
        exact Option.noConfusion h4'

theorem findSplit_ne_none {g : Grammar} {t : Table} {i j k : Nat}
    {x : Symb} {rhss : List (List Symb)} {l r : Symb}
    (hik : i ≤ k) (hkj : k < j) (hg : (x, rhss) ∈ g) (hm : [l, r] ∈ rhss)
    (hl : l ∈ t i k) (hr : r ∈ t (k + 1) j) :
    findSplit g t i j ≠ none := by
  unfold findSplit
  refine findSome_ne_none (List.mem_range'_1.mpr ⟨hik, by omega⟩) ?_
  refine findSome_ne_none hg ?_
  refine findSome_ne_none hm ?_
  show (if l ∈ t i k ∧ r ∈ t (k + 1) j then some (k, (x, rhss).1, l, r)
    else none) ≠ none
  rw [if_pos ⟨hl, hr⟩]
  exact Option.noConfusion

/-- Lemma: `helper` always succeeds on a symbol recorded in the exact table, and
its tree's yield is the corresponding substring. -/
theorem helperF_sound {g : Grammar} (hcnf : StrictCNF g) {s : List Char} :
    ∀ (fuel i j : Nat) (sym : Symb), j - i < fuel → i ≤ j → j < s.length →
      sym ∈ MainPy.cykTable g s i j →
      ∃ tr, helperF g (MainPy.cykTable g s) s fuel i j sym = some tr ∧
        pYield tr = String.mk (sub s i j) := by
  intro fuel
  induction fuel with
  | zero =>
      intro i j sym hfuel
      omega
  | succ fuel ih =>
      intro i j sym hfuel hij hjn hmem
      rcases Nat.eq_or_lt_of_le hij with rfl | hij'
      · refine ⟨.uno sym (.leaf (chr (s.getD i ' '))), ?_, ?_⟩
        · unfold helperF
          rw [if_pos rfl]
        · rw [sub_singleton hjn]
          rfl
      · rcases ((MainPy.cykTable_exact hcnf).2 i j hij' hjn sym).mp hmem with
          ⟨k, hik, hkj, rhss, l, r, hg, hm, hl, hr⟩
        have hne := findSplit_ne_none hik hkj hg hm hl hr
        match hfs : findSplit g (MainPy.cykTable g s) i j with
        | none => exact absurd hfs hne
        | some (k0, lhs0, l0, r0) =>
            obtain ⟨hik0, hk0j, ⟨rhss0, hg0, hm0⟩, hl0, hr0⟩ :=
              findSplit_facts hfs
            obtain ⟨tl, htl, hyl⟩ :=
              ih i k0 l0 (by omega) hik0 (by omega) hl0
            obtain ⟨tr, htr, hyr⟩ :=
              ih (k0 + 1) j r0 (by omega) (by omega) hjn hr0
            refine ⟨.bin lhs0 (toP (helperF g (MainPy.cykTable g s) s fuel
              i k0 l0)) (toP (helperF g (MainPy.cykTable g s) s fuel
              (k0 + 1) j r0)), ?_, ?_⟩
            · simp only [helperF]
              rw [if_neg (by omega), hfs]
            · rw [htl, htr]
              show pYield tl ++ pYield tr = String.mk (sub s i j)
              rw [hyl, hyr]
              have hmk : String.mk (sub s i k0) ++ String.mk (sub s (k0 + 1) j)
                  = String.mk (sub s i k0 ++ sub s (k0 + 1) j) := rfl
              rw [hmk, sub_concat hik0 hk0j]

/-- Reconstruction in `tree.py` succeeds whenever its start symbol `"S"` is in
the top cell of the exact table, and the yield of the returned tree is the
input string. -/
theorem buildDerivationTree_sound {g : Grammar} (hcnf : StrictCNF g)
    {s : List Char} (hs : s ≠ [])
    (hmem : "S" ∈ MainPy.cykTable g s 0 (s.length - 1)) :
    ∃ tr, buildDerivationTree (MainPy.cykTable g s) g s = some tr ∧
      pYield tr = String.mk s := by
  have hn : 1 ≤ s.length := List.length_pos.mpr hs
  obtain ⟨tr, htr, hy⟩ := helperF_sound hcnf s.length 0 (s.length - 1) "S"
    (by omega) (by omega) (by omega) hmem
  refine ⟨tr, ?_, ?_⟩
  · unfold buildDerivationTree
    rw [if_pos hmem]
    exact htr
  · rw [hy, sub_full hs]

end TreePy

/-!  ### `parser.py`'s cells also only hold grammar keys  -/

namespace ParserPy

theorem foldl_rules_last {rhs : List Symb} {y : Symb} :
    ∀ (l : List (List Symb × Symb)) (init : Option Symb),
      l.foldl (fun acc e => if e.1 = rhs then some e.2 else acc) init
        = some y →
      init = some y ∨ ∃ e ∈ l, e.2 = y := by
  intro l
  induction l with
  | nil => exact fun init h => Or.inl h
  | cons e rest ih =>
      intro init h
      rw [List.foldl_cons] at h
      rcases ih _ h with h0 | ⟨e', he', hy⟩
      · by_cases hc : e.1 = rhs
        · rw [if_pos hc] at h0
          exact Or.inr ⟨e, List.mem_cons_self _ _, Option.some.inj h0⟩
        · rw [if_neg hc] at h0
          exact Or.inl h0
      · exact Or.inr ⟨e', List.mem_cons_of_mem _ he', hy⟩

theorem rulesGet_mem {g : Grammar} {rhs : List Symb} {y : Symb}
    (h : rulesGet g rhs = some y) : y ∈ keys g := by
  unfold rulesGet at h
  rcases foldl_rules_last _ _ h with h0 | ⟨e, he, hy⟩
  · exact Option.noConfusion h0
  · unfold rulesList at he
    rcases List.mem_flatten.mp he with ⟨l', hl', hel⟩
    rcases List.mem_map.mp hl' with ⟨p, hp, rfl⟩
    rcases List.mem_map.mp hel with ⟨rhs', hrhs', rfl⟩
    rw [← hy]
    exact List.mem_map.mpr ⟨p, hp, rfl⟩

theorem pInKeys_diagFill {g : Grammar} {s : List Char} :
    InKeys g (diagFill g s) := by
  unfold diagFill
  refine MainPy.inKeys_foldl _ _ (fun t i _ ht => ?_) ?_
  · unfold diagPos
    refine MainPy.inKeys_foldl _ _ (fun t p hp ht => ?_) ht
    intro a b x h
    by_cases hc : [chr (s.getD i ' ')] ∈ p.2
    · rw [if_pos hc] at h
      rcases mem_cellAdd.mp h with h0 | ⟨-, -, rfl⟩
      · exact ht a b x h0
      · exact List.mem_map.mpr ⟨p, hp, rfl⟩
    · rw [if_neg hc] at h
      exact ht a b x h
  · intro a b x h
    exact absurd h (List.not_mem_nil _)

theorem pInKeys_upSplit {g : Grammar} {i j k : Nat} {t : Table}
    (ht : InKeys g t) : InKeys g (upSplit g i j k t) := by
  unfold upSplit
  refine MainPy.inKeys_foldl _ _ (fun t1 A _ ht1 => ?_) ht
  refine MainPy.inKeys_foldl _ _ (fun t2 B _ ht2 => ?_) ht1
  intro a b x h
  revert h
  match hr : rulesGet g [A, B] with
  | some lhs =>
      intro h
      rcases mem_cellAdd.mp h with h0 | ⟨-, -, rfl⟩
      · exact ht2 a b x h0
      · exact rulesGet_mem hr
  | none => exact fun h => ht2 a b x h

theorem pInKeys_tableUpTo {g : Grammar} {s : List Char} (L : Nat) :
    InKeys g (tableUpTo g s L) := by
  unfold tableUpTo
  refine MainPy.inKeys_foldl _ _ (fun t len _ ht => ?_) pInKeys_diagFill
  unfold upLen
  refine MainPy.inKeys_foldl _ _ (fun t1 st _ ht1 => ?_) ht
  unfold upCell
  refine MainPy.inKeys_foldl _ _ (fun t2 k _ ht2 => ?_) ht1
  exact pInKeys_upSplit ht2

theorem pInKeys_cykTable {g : Grammar} {s : List Char} :
    InKeys g (cykTable g s) := pInKeys_tableUpTo s.length

end ParserPy

/-!  ### The app's default input makes `main.py`'s reconstruction loop
forever

`main.py` ships with the default grammar
`{"S": [["A", "B"], ["B", "A"], ["A"]], "A": [["a"], ["S"]], "B": [["b"]]}`
and default string `"ab"`.  Processing the item `(0, 1, "S")` re-pushes
`(0, 1, "S")` (via the unary rule `A -> S` with `S` in the cell), so the
worklist never empties.  -/

/-- The grammar pre-filled in the `main.py` sidebar. -/
def defaultGrammar : Grammar :=
  [("S", [["A", "B"], ["B", "A"], ["A"]]), ("A", [["a"], ["S"]]),
    ("B", [["b"]])]

/-- The CYK table `main.py` builds for the default grammar and `"ab"`. -/
def defaultTable : Table := MainPy.cykTable defaultGrammar ['a', 'b']

theorem default_pushList :
    MainPy.pushList defaultGrammar defaultTable 0 1 =
      [(0, 0, "A"), (1, 1, "B"), (0, 1, "A"), (0, 1, "S")] := by decide

/-- One loop iteration on a `(0, 1, "S")` item puts `(0, 1, "S")` right back
on top of the stack. -/
theorem default_step_stack (p : Option Nat)
    (rest : List (Nat × Nat × Symb × Option Nat)) (st : MainPy.BState) :
    ∃ n : Nat,
      (MainPy.stepItem defaultGrammar defaultTable ['a', 'b']
        (0, 1, "S", p) rest st).stack =
      (0, 1, "S", some n) :: (0, 1, "A", some n) :: (1, 1, "B", some n) ::
        (0, 0, "A", some n) :: rest := by
  rcases hfind : st.nodes.find? (fun e => e.1 = (0, 1, "S")) with _ | e
  · refine ⟨st.heap.length, ?_⟩
    simp [MainPy.stepItem, hfind, default_pushList]
  · refine ⟨e.2, ?_⟩
    simp [MainPy.stepItem, hfind, default_pushList]

/-- The worklist loop never terminates from any state whose top item is
`(0, 1, "S")`. -/
theorem default_loop_none :
    ∀ (fuel : Nat) (st : MainPy.BState),
      (∃ p rest, st.stack = (0, 1, "S", p) :: rest) →
      MainPy.buildLoop defaultGrammar defaultTable ['a', 'b'] fuel st
        = none := by
  intro fuel
  induction fuel with
  | zero =>
      rintro st ⟨p, rest, hst⟩
      unfold MainPy.buildLoop
      rw [hst]
      rfl
  | succ fuel ih =>
      rintro st ⟨p, rest, hst⟩
      unfold MainPy.buildLoop
      rw [hst]
      show MainPy.buildLoop defaultGrammar defaultTable ['a', 'b'] fuel
        (MainPy.stepItem defaultGrammar defaultTable ['a', 'b']
          (0, 1, "S", p) rest st) = none
      obtain ⟨n, hn⟩ := default_step_stack p rest st
      exact ih _ ⟨some n, _, hn⟩

/-!  ## The claims  -/

/-- Scenario 1 of the spec: the CNF grammar
`{S: [[A,B],[B,A]], A: [[a]], B: [[b]]}`. -/
def grammar1 : Grammar :=
  [("S", [["A", "B"], ["B", "A"]]), ("A", [["a"]]), ("B", [["b"]])]

/-- A grammar whose first key has only terminal productions while a later
key matches the input. -/
def grammar2 : Grammar := [("S", [["a"]]), ("A", [["b"]])]

/-- Two nonterminals sharing the binary right-hand side `A B`. -/
def grammar3 : Grammar :=
  [("S", [["A", "B"]]), ("T", [["A", "B"]]), ("A", [["a"]]), ("B", [["b"]])]

/-- The unary-chain grammar `{S: [[A]], A: [[a]]}` of spec scenario 4. -/
def grammar4 : Grammar := [("S", [["A"]]), ("A", [["a"]])]

/-- A unary rule `S -> A` whose premise `A` only enters the cell after `S`
was already scanned in the single propagation pass. -/
def grammar6 : Grammar :=
  [("S", [["A"]]), ("A", [["X", "Y"]]), ("X", [["x"]]), ("Y", [["y"]])]

/-- A grammar whose first key is `T`, not `S`. -/
def grammar7 : Grammar := [("T", [["a"]]), ("S", [["b"]])]

/-- First key `T` cannot derive `"a"`, but `S` can. -/
def grammar9 : Grammar := [("T", [["S", "S"]]), ("S", [["a"]])]

/-- Two nonterminals `E` and `C` share the right-hand side `A B`; `E` is
listed first, so `tree.py`'s `helper`, which ignores the symbol it was asked
to derive, relabels a `C` node as `E`. -/
def grammarRel : Grammar :=
  [("S", [["C", "D"]]), ("E", [["A", "B"]]), ("C", [["A", "B"]]),
    ("A", [["a"]]), ("B", [["b"]]), ("D", [["c"]])]

set_option maxRecDepth 8192 in
/-- C1 counterexample: on the claim's own grammar and string `"ab"`,
`main.py`'s `build_derivation_tree` appends each node's children in reverse
order (the stack pops the right child first), so it returns the tree
`S(B(b), A(a))` — not `S(A(a), B(b))` — and its leaf yield is `"ba"`, not
the input `"ab"`.  The production-matching half fails too: on `grammarRel`
with `"abc"`, `tree.py`'s reconstructor returns a tree whose root `S` has
child symbols `(E, D)`, which is not a production of `S`. -/
theorem C1_counterexample :
    MainPy.buildDerivationTree 20 (MainPy.cykTable grammar1 ['a', 'b'])
        grammar1 ['a', 'b'] =
      some (some 0, [⟨"S", [1, 3]⟩, ⟨"B", [2]⟩, ⟨"b", []⟩, ⟨"A", [4]⟩,
        ⟨"a", []⟩]) ∧
    (MainPy.buildDerivationTree 20 (MainPy.cykTable grammar1 ['a', 'b'])
        grammar1 ['a', 'b']).map
      (fun r => r.1.map (fun rt => MainPy.walkYield r.2 20 rt)) =
      some (some "ba") ∧
    ("ba" : String) ≠ "ab" ∧
    TreePy.buildDerivationTree (MainPy.cykTable grammarRel ['a', 'b', 'c'])
        grammarRel ['a', 'b', 'c'] =
      some (.bin "S" (.bin "E" (.uno "A" (.leaf "a")) (.uno "B" (.leaf "b")))
        (.uno "D" (.leaf "c"))) ∧
    ("S", [["C", "D"]]) ∈ grammarRel ∧
    (["E", "D"] ∈ [["C", "D"]] → False) :=
  ⟨by decide, by decide, by decide, by decide, by decide, by decide⟩

/-- C1 (amended): reconstruction soundness holds for `tree.py`'s recursive
reconstructor: over the table built for a CNF grammar, whenever its start
symbol `"S"` is in the top cell it returns a tree whose leaf yield is
exactly the input string, and on the claim's concrete grammar and `"ab"` it
returns `S(A(a), B(b))`.  (`main.py`'s iterative reconstructor instead
reverses children, per the counterexample.) -/
theorem C1_amended :
    (∀ (g : Grammar) (s : List Char), StrictCNF g → s ≠ [] →
      "S" ∈ MainPy.cykTable g s 0 (s.length - 1) →
      ∃ tr, TreePy.buildDerivationTree (MainPy.cykTable g s) g s = some tr ∧
        TreePy.pYield tr = String.mk s) ∧
    TreePy.buildDerivationTree (MainPy.cykTable grammar1 ['a', 'b'])
      grammar1 ['a', 'b'] =
      some (.bin "S" (.uno "A" (.leaf "a")) (.uno "B" (.leaf "b"))) := by
  constructor
  · intro g s hcnf hs hmem
    exact TreePy.buildDerivationTree_sound hcnf hs hmem
  · decide

/-- C1 witness: the amended soundness applied to the concrete grammar and
string of the claim. -/
theorem C1_witness :
    StrictCNF grammar1 ∧ (['a', 'b'] : List Char) ≠ [] ∧
    "S" ∈ MainPy.cykTable grammar1 ['a', 'b'] 0
      ((['a', 'b'] : List Char).length - 1) ∧
    ∃ tr, TreePy.buildDerivationTree (MainPy.cykTable grammar1 ['a', 'b'])
        grammar1 ['a', 'b'] = some tr ∧
      TreePy.pYield tr = String.mk ['a', 'b'] :=
  ⟨by decide, by decide, by decide,
    C1_amended.1 grammar1 ['a', 'b'] (by decide) (by decide) (by decide)⟩

/-- C2 counterexample: for the grammar `{S: [[a]], A: [[b]]}` and string
`"b"`, `main.py`'s `cyk_parser` returns `True` although the start symbol
(the first key, `S`) is not in `table(0, n-1)` — the boolean tests
non-emptiness of the cell, not start-symbol membership. -/
theorem C2_counterexample :
    MainPy.cykAccept grammar2 ['b'] = true ∧
    MainPy.startSymbol grammar2 = "S" ∧
    ("S" ∈ MainPy.cykTable grammar2 ['b'] 0 0 → False) :=
  ⟨by decide, rfl, by decide⟩

/-- C2 (amended): `main.py`'s membership boolean is true iff the cell
`table(0, n-1)` is non-empty (for any symbol, not the start symbol), and
that boolean is exactly the first component of the returned pair. -/
theorem C2_amended :
    ∀ (g : Grammar) (s : List Char), s ≠ [] →
      (MainPy.cykAccept g s = true ↔
        MainPy.cykTable g s 0 (s.length - 1) ≠ []) ∧
      MainPy.cykParser g s =
        Except.ok (MainPy.cykAccept g s, MainPy.cykTable g s) := by
  intro g s hs
  constructor
  · unfold MainPy.cykAccept
    simp
  · unfold MainPy.cykParser
    rw [if_neg hs]

/-- C2 witness: the amended characterisation applied at the
counterexample's input. -/
theorem C2_witness :
    MainPy.cykAccept grammar2 ['b'] = true ↔
      MainPy.cykTable grammar2 ['b'] 0 ((['b'] : List Char).length - 1)
        ≠ [] :=
  (C2_amended grammar2 ['b'] (by decide)).1

/-- C3 counterexample: `parser.py`'s `rules` dict maps each right-hand side
to a single left-hand side (later keys override earlier ones), so with
`S -> A B` and `T -> A B` the cell `(0, 1)` for `"ab"` misses `S` even
though `A ∈ table(0,0)` and `B ∈ table(1,1)` witness it — exactness fails
for that builder. -/
theorem C3_counterexample :
    ("S", [["A", "B"]]) ∈ grammar3 ∧
    "A" ∈ ParserPy.cykTable grammar3 ['a', 'b'] 0 0 ∧
    "B" ∈ ParserPy.cykTable grammar3 ['a', 'b'] 1 1 ∧
    ("S" ∈ ParserPy.cykTable grammar3 ['a', 'b'] 0 1 → False) :=
  ⟨by decide, by decide, by decide, by decide⟩

/-- C3 (amended): cell exactness as claimed holds for `main.py`'s builder
on CNF grammars: the diagonal holds exactly the nonterminals with a
matching terminal production, and each upper cell holds exactly the
nonterminals witnessed by a split point and a binary production over the
finished table.  (`parser.py`'s builder records only the last key sharing a
binary right-hand side, per the counterexample.) -/
theorem C3_amended :
    ∀ (g : Grammar), StrictCNF g → ∀ (s : List Char),
      (∀ i, i < s.length → ∀ x,
        (x ∈ MainPy.cykTable g s i i ↔
          ∃ rhss, (x, rhss) ∈ g ∧ [chr (s.getD i ' ')] ∈ rhss)) ∧
      (∀ i j, i < j → j < s.length → ∀ x,
        (x ∈ MainPy.cykTable g s i j ↔
          ∃ k, i ≤ k ∧ k < j ∧ ∃ rhss l r, (x, rhss) ∈ g ∧ [l, r] ∈ rhss ∧
            l ∈ MainPy.cykTable g s i k ∧
            r ∈ MainPy.cykTable g s (k + 1) j)) :=
  fun g hcnf s => MainPy.cykTable_exact hcnf

/-- C3 witness: exactness applied to the spec's scenario-1 grammar at cell
`(0, 1)` of `"ab"`. -/
theorem C3_witness :
    StrictCNF grammar1 ∧
    ("S" ∈ MainPy.cykTable grammar1 ['a', 'b'] 0 1 ↔
      ∃ k, 0 ≤ k ∧ k < 1 ∧ ∃ rhss l r, ("S", rhss) ∈ grammar1 ∧
        [l, r] ∈ rhss ∧ l ∈ MainPy.cykTable grammar1 ['a', 'b'] 0 k ∧
        r ∈ MainPy.cykTable grammar1 ['a', 'b'] (k + 1) 1) :=
  ⟨by decide, (C3_amended grammar1 (by decide) ['a', 'b']).2 0 1
    (by decide) (by decide) "S"⟩

/-- C4 counterexample: for the unary-chain grammar `{S: [[A]], A: [[a]]}`
and string `"a"` a derivation of the string from the start symbol exists,
yet `main.py`'s reconstructor returns `None` (no tree) and `parser.py`'s
membership check reports rejection. -/
theorem C4_counterexample :
    Derives grammar4 "S" ['a'] ∧
    MainPy.buildDerivationTree 5 (MainPy.cykTable grammar4 ['a']) grammar4
      ['a'] = some (none, []) ∧
    ParserPy.cykAcceptB grammar4 ['a'] = some false := by
  refine ⟨?_, by decide, by decide⟩
  refine @sder_single grammar4 "S" [["A"]] ["A"] ['a'] (by decide)
    (by decide) ?_
  refine @sder_single grammar4 "A" [["a"]] ["a"] ['a'] (by decide)
    (by decide) ?_
  exact SDer.term 'a' [] [] (by decide) SDer.nil

/-- C4 (amended): completeness holds for `main.py`'s table on CNF grammars:
if the input derives from a grammar key `x` then `x` is in `table(0, n-1)`,
hence `main.py`'s membership check accepts; and when the derivable symbol
is `tree.py`'s start symbol `"S"`, that reconstructor returns a non-empty
tree. -/
theorem C4_amended :
    ∀ (g : Grammar) (s : List Char) (x : Symb), StrictCNF g → s ≠ [] →
      x ∈ keys g → Derives g x s →
      x ∈ MainPy.cykTable g s 0 (s.length - 1) ∧
      MainPy.cykAccept g s = true ∧
      (x = "S" → ∃ tr,
        TreePy.buildDerivationTree (MainPy.cykTable g s) g s = some tr ∧
        TreePy.pYield tr = String.mk s) := by
  intro g s x hcnf hs hx hd
  have hn : 1 ≤ s.length := List.length_pos.mpr hs
  have hmem : x ∈ MainPy.cykTable g s 0 (s.length - 1) := by
    refine MainPy.sder_mem_cykTable hcnf s.length 0 (s.length - 1) x
      (by omega) (by omega) (by omega) hx ?_
    rw [sub_full hs]
    exact hd
  have hne : MainPy.cykTable g s 0 (s.length - 1) ≠ [] := by
    intro hc
    rw [hc] at hmem
    exact absurd hmem (List.not_mem_nil _)
  refine ⟨hmem, ?_, ?_⟩
  · unfold MainPy.cykAccept
    simp [hne]
  · rintro rfl
    exact TreePy.buildDerivationTree_sound hcnf hs hmem

/-- C4 witness: completeness applied to the scenario-1 grammar and `"ab"`,
with the derivation `S => A B => a B => a b` built explicitly. -/
theorem C4_witness :
    Derives grammar1 "S" ['a', 'b'] ∧
    "S" ∈ MainPy.cykTable grammar1 ['a', 'b'] 0
      ((['a', 'b'] : List Char).length - 1) ∧
    MainPy.cykAccept grammar1 ['a', 'b'] = true := by
  have hta : SDer grammar1 ["a"] ['a'] :=
    SDer.term 'a' [] [] (by decide) SDer.nil
  have htb : SDer grammar1 ["b"] ['b'] :=
    SDer.term 'b' [] [] (by decide) SDer.nil
  have hB : SDer grammar1 ["B"] ['b'] :=
    @sder_single grammar1 "B" [["b"]] ["b"] ['b'] (by decide) (by decide) htb
  have hAB : SDer grammar1 ["A", "B"] ['a', 'b'] :=
    SDer.nonterm "A" [["a"]] ["a"] ["B"] ['a'] ['b'] (by decide) (by decide)
      hta hB
  have hS : Derives grammar1 "S" ['a', 'b'] :=
    @sder_single grammar1 "S" [["A", "B"], ["B", "A"]] ["A", "B"] ['a', 'b']
      (by decide) (by decide) hAB
  have happ := C4_amended grammar1 ['a', 'b'] "S" (by decide) (by decide)
    (by decide) hS
  exact ⟨hS, happ.1, happ.2.1⟩

/-- C5 (code bug): `main.py`'s `build_derivation_tree` does not terminate
on the app's own pre-filled default input (grammar
`{S: [[A,B],[B,A],[A]], A: [[a],[S]], B: [[b]]}`, string `"ab"`): whatever
fuel the loop is given, it is still running, because processing the item
`(0, 1, S)` pushes `(0, 1, S)` back on the stack through the unary rule
`A -> S`. -/
theorem C5_theorem :
    ∀ fuel : Nat,
      MainPy.buildDerivationTree fuel defaultTable defaultGrammar
        ['a', 'b'] = none := by
  intro fuel
  have h := default_loop_none fuel
    ⟨[(0, (['a', 'b'] : List Char).length - 1,
        MainPy.startSymbol defaultGrammar, none)], [], [], none⟩
    ⟨none, [], rfl⟩
  simp only [MainPy.buildDerivationTree]
  split
  · rw [h]
    rfl
  · next hc => exact (hc (by decide)).elim

/-- C6 counterexample: unary additions are not propagated to a fixed point:
with `S -> A` listed before `A -> X Y`, after the pass on span `(0, 1)` of
`"xy"` the cell contains `A` but not `S`, although `S -> A` and
`A ∈ table(0,1)` demand `S` under closure. -/
theorem C6_counterexample :
    ("S", [["A"]]) ∈ grammar6 ∧
    "A" ∈ MainPy.cykTable grammar6 ['x', 'y'] 0 1 ∧
    ("S" ∈ MainPy.cykTable grammar6 ['x', 'y'] 0 1 → False) :=
  ⟨by decide, by decide, by decide⟩

/-- C6 (amended): `main.py` applies unary rules in a single in-order pass
per split (and none at all on length-1 spans), so `S` is missed in the
`grammar6` cell; for the claim's grammar `{S: [[A]], A: [[a]]}` and `"a"`,
`main.py` returns `True` only because its verdict tests cell non-emptiness
(the cell is exactly `[A]`, `S` absent — no chain propagation happened),
and `parser.py` returns `False`. -/
theorem C6_amended :
    MainPy.cykTable grammar6 ['x', 'y'] 0 1 = ["A"] ∧
    MainPy.cykAccept grammar4 ['a'] = true ∧
    MainPy.cykTable grammar4 ['a'] 0 0 = ["A"] ∧
    ("S" ∈ MainPy.cykTable grammar4 ['a'] 0 0 → False) ∧
    ParserPy.cykAcceptB grammar4 ['a'] = some false :=
  ⟨by decide, by decide, by decide, by decide, by decide⟩

/-- C7 counterexample: with first key `T`, `parser.py`'s membership check
accepts `"b"` because it tests the hard-coded literal `"S"`, although the
conventional start symbol `T` is not in the cell. -/
theorem C7_counterexample :
    MainPy.startSymbol grammar7 = "T" ∧
    ParserPy.cykAcceptB grammar7 ['b'] = some true ∧
    ("T" ∈ ParserPy.cykTable grammar7 ['b'] 0 0 → False) :=
  ⟨rfl, by decide, by decide⟩

/-- C7 (amended): only `main.py`'s reconstructor uses the first grammar key
as start symbol; `parser.py`'s check and `tree.py`'s reconstructor use the
literal `"S"`, and `main.py`'s check consults no start symbol at all. -/
theorem C7_amended :
    (∀ (g : Grammar) (s : List Char), s ≠ [] →
      ParserPy.cykAcceptB g s =
        some (decide ("S" ∈ ParserPy.cykTable g s 0 (s.length - 1)))) ∧
    (∀ (t : Table) (g : Grammar) (s : List Char),
      "S" ∉ t 0 (s.length - 1) → TreePy.buildDerivationTree t g s = none) ∧
    (∀ (fuel : Nat) (t : Table) (g : Grammar) (s : List Char) (r : Nat)
        (heap : List MainPy.HNode), g ≠ [] →
      MainPy.buildDerivationTree fuel t g s = some (some r, heap) →
      MainPy.startSymbol g ∈ t 0 (s.length - 1)) := by
  refine ⟨?_, ?_, ?_⟩
  · intro g s hs
    unfold ParserPy.cykAcceptB ParserPy.cykParser
    rw [if_neg (by simpa [List.length_eq_zero] using hs)]
    rfl
  · intro t g s hmem
    simp only [TreePy.buildDerivationTree]
    rw [if_neg hmem]
  · intro fuel t g s r heap hg h
    by_cases hc : MainPy.startSymbol g ∈ t 0 (s.length - 1)
    · exact hc
    · exfalso
      simp only [MainPy.buildDerivationTree] at h
      rw [if_neg hc] at h
      have h2 := congrArg Prod.fst (Option.some.inj h)
      exact Option.noConfusion h2

/-- C7 witness: the `parser.py` part of the amended statement at the
counterexample's input. -/
theorem C7_witness :
    ParserPy.cykAcceptB grammar7 ['b'] =
      some (decide ("S" ∈ ParserPy.cykTable grammar7 ['b'] 0
        ((['b'] : List Char).length - 1))) :=
  C7_amended.1 grammar7 ['b'] (by decide)

/-- C8 counterexample: on the empty input string the builders do not return
a rejection verdict: `main.py` raises
`ValueError("Input string cannot be empty.")` and `parser.py` crashes with
an `IndexError` on `table[0]`. -/
theorem C8_counterexample :
    MainPy.cykParser grammar1 [] =
      Except.error "Input string cannot be empty." ∧
    ParserPy.cykParser grammar1 [] = none :=
  ⟨rfl, rfl⟩

/-- C8 (amended): for every grammar, the empty input string raises instead
of producing a membership verdict, in both builders. -/
theorem C8_amended :
    ∀ g : Grammar,
      MainPy.cykParser g [] = Except.error "Input string cannot be empty." ∧
      ParserPy.cykParser g [] = none :=
  fun g => ⟨rfl, rfl⟩

/-- C9 counterexample: with first key `T` absent from `table(0, n-1)` but
`"S"` present, `tree.py`'s reconstructor returns a tree instead of the
"no derivation" result, because it checks the literal `"S"` rather than the
conventional start symbol. -/
theorem C9_counterexample :
    MainPy.startSymbol grammar9 = "T" ∧
    ("T" ∈ MainPy.cykTable grammar9 ['a'] 0 0 → False) ∧
    TreePy.buildDerivationTree (MainPy.cykTable grammar9 ['a']) grammar9
      ['a'] = some (.uno "S" (.leaf "a")) :=
  ⟨rfl, by decide, by decide⟩

/-- C9 (amended): rejection is not an error for each reconstructor's own
start symbol: when the first key is absent from `table(0, n-1)`,
`main.py`'s reconstructor returns `None` without touching the stack loop,
and when the literal `"S"` is absent, `tree.py`'s reconstructor returns
`None`. -/
theorem C9_amended :
    (∀ (fuel : Nat) (t : Table) (g : Grammar) (s : List Char), g ≠ [] →
      MainPy.startSymbol g ∉ t 0 (s.length - 1) →
      MainPy.buildDerivationTree fuel t g s = some (none, [])) ∧
    (∀ (t : Table) (g : Grammar) (s : List Char),
      "S" ∉ t 0 (s.length - 1) → TreePy.buildDerivationTree t g s
        = none) := by
  constructor
  · intro fuel t g s hg h
    simp only [MainPy.buildDerivationTree]
    rw [if_neg h]
  · intro t g s h
    simp only [TreePy.buildDerivationTree]
    rw [if_neg h]

/-- C9 witness: the amended statement applied where the first key `T` is
absent from the top cell. -/
theorem C9_witness :
    MainPy.buildDerivationTree 3 (MainPy.cykTable grammar9 ['a']) grammar9
      ['a'] = some (none, []) :=
  C9_amended.1 3 (MainPy.cykTable grammar9 ['a']) grammar9 ['a'] (by decide)
    (by decide)

/-- C10: every symbol ever stored in a cell — after the diagonal pass
(`tableUpTo _ _ 1`), after each span-length iteration (`tableUpTo _ _ L`),
and in the finished tables of both builders — is a key of the grammar
mapping. -/
theorem C10_theorem :
    ∀ (g : Grammar) (s : List Char) (L a b : Nat) (x : Symb),
      (x ∈ MainPy.tableUpTo g s L a b → x ∈ keys g) ∧
      (x ∈ MainPy.cykTable g s a b → x ∈ keys g) ∧
      (x ∈ ParserPy.tableUpTo g s L a b → x ∈ keys g) ∧
      (x ∈ ParserPy.cykTable g s a b → x ∈ keys g) :=
  fun g s L a b x =>
    ⟨fun h => MainPy.inKeys_tableUpTo L a b x h,
     fun h => MainPy.inKeys_cykTable a b x h,
     fun h => ParserPy.pInKeys_tableUpTo L a b x h,
     fun h => ParserPy.pInKeys_cykTable a b x h⟩

/-- C10 witness: the invariant applied to a concrete cell entry. -/
theorem C10_witness :
    "S" ∈ MainPy.cykTable grammar1 ['a', 'b'] 0 1 ∧ "S" ∈ keys grammar1 :=
  ⟨by decide, (C10_theorem grammar1 ['a', 'b'] 2 0 1 "S").2.1 (by decide)⟩
